import Mathlib

/-
Verification of the Bazecor-rs host-side keyboard toolkit.

This file gives a shallow embedding of the pure/protocol core of the
repository and proves properties of it:

* `src/libraries/focus/src/helpers.rs` — whitespace-token vector codecs
  (numeric, RGB, RGBW);
* `src/libraries/focus/src/api.rs` — the framed serial read loop
  (`Focus::read`), `Focus::write`, and the guarded / range-checked
  setters, modelled as a state monad over a transcript of writes plus an
  oracle of read responses;
* `src/libraries/api/src/flash/devices/defy/side_flasher.rs` —
  `prepare_chunks` with its CRC32 framing;
* `src/libraries/api/src/flash/devices/defy/nrf52833_flasher.rs` — the
  Intel-HEX line decoder, including its out-of-bounds slicing behaviour,
  which is modelled explicitly (Rust string slicing panics out of range).

Rust strings are modelled as `List Char` (the inputs of interest are
ASCII, so byte indices and char indices coincide); bytes are `Nat`
values below 256; machine integers are `Nat` with explicit bounds.
-/

namespace Bazecor

/-! ## Character and decimal-number primitives -/

/-- Whitespace test used by Rust's `str::split_whitespace` and
`u8::is_ascii_whitespace`, restricted to the ASCII range (all inputs in
this development are ASCII). -/
def rustIsWhitespace (c : Char) : Bool :=
  c = ' ' || c = '\t' || c = '\n' || c = '\r' || c = '\x0b' || c = '\x0c'

/-- Numeric value of a decimal digit character. -/
def decDigitVal (c : Char) : Nat := c.toNat - 48

/-- Value of a list of decimal digit characters, most significant first;
this is the accumulator loop inside Rust's `from_str_radix(…, 10)`. -/
def decDigitsVal (cs : List Char) : Nat :=
  cs.foldl (fun a c => a * 10 + decDigitVal c) 0

/-- Parse a nonempty, all-digit decimal string with overflow bound `mx`
(inclusive), as Rust's `from_str_radix` does after sign handling.  The
per-step overflow check of `from_str_radix` is equivalent to the final
bound check because the accumulator is monotone. -/
def parsePosDigits (mx : Nat) (cs : List Char) : Option Nat :=
  if cs ≠ [] ∧ cs.all Char.isDigit ∧ decDigitsVal cs ≤ mx then
    some (decDigitsVal cs)
  else
    none

/-- Model of Rust `str::parse::<uN>` (= `uN::from_str_radix(s, 10)`) with
maximum value `mx`: an optional leading sign (`-` succeeds only on an
all-zero digit string, since `0 - d` underflows otherwise), then at
least one digit, with overflow rejected. -/
def parseUIntDec (mx : Nat) (cs : List Char) : Option Nat :=
  match cs with
  | [] => none
  | c :: rest =>
    if c = '+' then parsePosDigits mx rest
    else if c = '-' then
      match parsePosDigits mx rest with
      | some 0 => some 0
      | _ => none
    else parsePosDigits mx (c :: rest)

/-- Helper for `natToDec`: accumulate decimal digits of `n` (least
significant digit pushed first, so the result reads most significant
first).  The first argument is structural fuel; any fuel at least `n`
gives the same result, so the recursion is total and kernel-reducible. -/
def natToDecAux : Nat → Nat → List Char → List Char
  | 0, n, acc => Char.ofNat (48 + n % 10) :: acc
  | fuel + 1, n, acc =>
    if n < 10 then Char.ofNat (48 + n % 10) :: acc
    else natToDecAux fuel (n / 10) (Char.ofNat (48 + n % 10) :: acc)

/-- Decimal rendering of an unsigned integer, as Rust's `Display` /
`ToString` for unsigned integers produces (no sign, no leading zeros,
`0` renders as `"0"`). -/
def natToDec (n : Nat) : List Char := natToDecAux n n []

/-! ## split_whitespace -/

/-- Helper for `splitWs`; `acc` is the current token, reversed. -/
def splitWsAux : List Char → List Char → List (List Char)
  | [], acc => if acc.isEmpty then [] else [acc.reverse]
  | c :: cs, acc =>
    if rustIsWhitespace c then
      if acc.isEmpty then splitWsAux cs [] else acc.reverse :: splitWsAux cs []
    else splitWsAux cs (c :: acc)

/-- Model of Rust `str::split_whitespace`: maximal runs of
non-whitespace characters, with no empty tokens. -/
def splitWs (cs : List Char) : List (List Char) := splitWsAux cs []

/-! ## helpers.rs: vector codecs -/

/-- Error values produced by the helper codecs in
`src/libraries/focus/src/helpers.rs`.  `parseFailed` stands for the
`anyhow` wrapper around a `ParseIntError`; the two invalid-count values
stand for the bails "Invalid count, try RGBW instead" and "Invalid
count, try RGB instead". -/
inductive HErr where
  | parseFailed
  | invalidCountRgb
  | invalidCountRgbw
deriving DecidableEq, Repr

/-- Model of Rust's `Iterator::collect::<Result<Vec<_>, _>>` over a
mapped iterator: apply `f` left to right, stopping at the first error. -/
def collectMap {β ε α : Type} (f : β → Except ε α) : List β → Except ε (List α)
  | [] => .ok []
  | b :: bs =>
    match f b with
    | .error e => .error e
    | .ok a =>
      match collectMap f bs with
      | .error e => .error e
      | .ok l => .ok (a :: l)

/-- Helper for `chunksOf`, structural on fuel (any fuel at least the
list length gives the same result when the chunk size is positive). -/
def chunksOfAux {α : Type} (n : Nat) : Nat → List α → List (List α)
  | _, [] => []
  | 0, _ :: _ => []
  | fuel + 1, x :: xs => (x :: xs).take n :: chunksOfAux n fuel ((x :: xs).drop n)

/-- Model of Rust `slice::chunks n`: groups of `n`, the final group
possibly shorter.  (Rust panics on `n = 0`; this model is only ever
instantiated with positive `n`.) -/
def chunksOf {α : Type} (n : Nat) (l : List α) : List (List α) :=
  chunksOfAux n l.length l

/-- `string_to_numerical_vec` from `helpers.rs`, with the numeric
type's maximum value `mx` passed explicitly (the Rust function is
generic over `T: FromStr`; the repository instantiates it at `u8` and
`u16`). -/
def string_to_numerical_vec (mx : Nat) (cs : List Char) : Except HErr (List Nat) :=
  collectMap
    (fun tok =>
      match parseUIntDec mx tok with
      | some n => .ok n
      | none => .error .parseFailed)
    (splitWs cs)

/-- Model of Rust `Vec::join(" ")`: concatenate tokens with a single
space between consecutive tokens. -/
def joinSpace : List (List Char) → List Char
  | [] => []
  | [t] => t
  | t :: t2 :: ts => t ++ ' ' :: joinSpace (t2 :: ts)

/-- `numerical_vec_to_string` from `helpers.rs`: render each number in
decimal and join with single spaces (`Vec::join(" ")`). -/
def numerical_vec_to_string (v : List Nat) : List Char :=
  joinSpace (v.map natToDec)

/-- The LED RGB color of `color.rs` (fields are `u8` in Rust; here
`Nat`, with every value produced by parsing bounded by 255). -/
structure RGB where
  r : Nat
  g : Nat
  b : Nat
deriving DecidableEq, Repr

/-- The LED RGBW color of `color.rs`. -/
structure RGBW where
  r : Nat
  g : Nat
  b : Nat
  w : Nat
deriving DecidableEq, Repr

/-- `string_to_rgb_vec` from `helpers.rs`: split on whitespace, group
tokens in threes, parse each token as `u8`; a group that is not exactly
three tokens is the "Invalid count" bail. -/
def string_to_rgb_vec (cs : List Char) : Except HErr (List RGB) :=
  collectMap
    (fun chunk =>
      match chunk with
      | [tr, tg, tb] =>
        match parseUIntDec 255 tr, parseUIntDec 255 tg, parseUIntDec 255 tb with
        | some r, some g, some b => .ok (RGB.mk r g b)
        | _, _, _ => .error .parseFailed
      | _ => .error .invalidCountRgb)
    (chunksOf 3 (splitWs cs))

/-- `string_to_rgbw_vec` from `helpers.rs`: as `string_to_rgb_vec` but
grouping tokens in fours. -/
def string_to_rgbw_vec (cs : List Char) : Except HErr (List RGBW) :=
  collectMap
    (fun chunk =>
      match chunk with
      | [tr, tg, tb, tw] =>
        match parseUIntDec 255 tr, parseUIntDec 255 tg,
              parseUIntDec 255 tb, parseUIntDec 255 tw with
        | some r, some g, some b, some w => .ok (RGBW.mk r g b w)
        | _, _, _, _ => .error .parseFailed
      | _ => .error .invalidCountRgbw)
    (chunksOf 4 (splitWs cs))

/-! ## Side-controller chunk framer (side_flasher.rs) -/

/-- Little-endian byte encoding of `n` in `w` bytes (Rust
`u32::to_le_bytes` is `leBytes 4`; a value wider than `w` bytes wraps,
matching an `as u32` cast). -/
def leBytes : Nat → Nat → List Nat
  | 0, _ => []
  | w + 1, n => n % 256 :: leBytes w (n / 256)

/-- Eight shift-xor rounds of the reflected CRC-32 polynomial
0xEDB88320, structural on the round count. -/
def crc32Rounds : Nat → Nat → Nat
  | 0, c => c
  | k + 1, c => crc32Rounds k ((c / 2) ^^^ (if c % 2 = 1 then 0xEDB88320 else 0))

/-- Feed one byte into a CRC-32 state. -/
def crc32Update (c b : Nat) : Nat := crc32Rounds 8 (c ^^^ b)

/-- CRC-32 (ISO-HDLC / IEEE 802.3) of a byte sequence, as computed by
the `crc32fast::Hasher` used in `side_flasher.rs`: initial state
0xFFFFFFFF, reflected polynomial 0xEDB88320, final xor 0xFFFFFFFF.
(Checked against the standard test vector: `"123456789"` hashes to
0xCBF43926.) -/
def crc32 (data : List Nat) : Nat :=
  (data.foldl crc32Update 0xFFFFFFFF) ^^^ 0xFFFFFFFF

/-- `SideFlasher::prepare_chunks` from `side_flasher.rs`: split the
firmware bytes into 256-byte slices (`par_chunks(256)`), and frame each
slice as offset(4 LE) || length(4 LE) || data || crc32(4 LE), where the
CRC is over the slice's own bytes only.  The `rayon` parallel iterator
preserves order in `collect`, so the sequential model is exact. -/
def prepare_chunks (firmware : List Nat) : List (List Nat) :=
  (chunksOf 256 firmware).enum.map fun p =>
    leBytes 4 (p.1 * 256) ++ leBytes 4 p.2.length ++ p.2 ++ leBytes 4 (crc32 p.2)

/-- A concrete 600-byte firmware image for the C2 witness. -/
def exampleFirmware600 : List Nat := (List.range 600).map (fun k => k % 256)

/-! ## Intel-HEX decoder (nrf52833_flasher.rs) -/

/-- Hex-digit test on code points (0-9, A-F, a-f), as accepted by Rust's
`from_str_radix(…, 16)`. -/
def isHexDigitChar (c : Char) : Bool :=
  (48 ≤ c.toNat && c.toNat ≤ 57) || (65 ≤ c.toNat && c.toNat ≤ 70)
    || (97 ≤ c.toNat && c.toNat ≤ 102)

/-- Numeric value of a hex digit character. -/
def hexCharVal (c : Char) : Nat :=
  if c.toNat ≤ 57 then c.toNat - 48
  else if 97 ≤ c.toNat then c.toNat - 87
  else c.toNat - 55

/-- Value of a list of hex digit characters, most significant first. -/
def hexDigitsVal (cs : List Char) : Nat :=
  cs.foldl (fun a c => a * 16 + hexCharVal c) 0

/-- Parse a nonempty, all-hex-digit string with overflow bound `mx`
(inclusive), as `from_str_radix(…, 16)` does after sign handling. -/
def parsePosHexDigits (mx : Nat) (cs : List Char) : Option Nat :=
  if cs ≠ [] ∧ cs.all isHexDigitChar ∧ hexDigitsVal cs ≤ mx then
    some (hexDigitsVal cs)
  else
    none

/-- Model of Rust `uN::from_str_radix(s, 16)` with maximum value `mx`:
an optional leading sign (`-` succeeds only on an all-zero digit
string), then at least one hex digit, with overflow rejected. -/
def parseHexRadix (mx : Nat) (cs : List Char) : Option Nat :=
  match cs with
  | [] => none
  | c :: rest =>
    if c = '+' then parsePosHexDigits mx rest
    else if c = '-' then
      match parsePosHexDigits mx rest with
      | some 0 => some 0
      | _ => none
    else parsePosHexDigits mx (c :: rest)

/-- Maximum value of Rust `usize` (64-bit targets). -/
def USIZE_MAX : Nat := 2 ^ 64 - 1

/-- Model of Rust string slicing `s[a..b]`: `none` models the panic on
out-of-range indices.  (Byte indices; the inputs of interest are ASCII,
so char and byte indices coincide.) -/
def strSlice (cs : List Char) (a b : Nat) : Option (List Char) :=
  if a ≤ b ∧ b ≤ cs.length then some ((cs.drop a).take (b - a)) else none

/-- Outcome of a Rust computation that can also panic: `oob` models an
out-of-bounds string-slice panic, `failed` a returned `Err` (here
always a `ParseIntError` propagated by `?`). -/
inductive RsOutcome (α : Type) where
  | oob
  | failed
  | ok (a : α)
deriving DecidableEq, Repr

/-- The `RecordType` enum of `nrf52833_flasher.rs`. -/
inductive RecordType where
  | Unknown (b : Nat)
  | DAT
  | ESA
  | ELA
deriving DecidableEq, Repr

/-- The `DecodedHex` struct of `nrf52833_flasher.rs` (`str` is the line
after marker stripping; `len` the declared byte count; `data` the
decoded trailing byte pairs). -/
structure DecodedHex where
  str : List Char
  len : Nat
  address : Nat
  record_type : RecordType
  data : List Nat
deriving DecidableEq, Repr

/-- The record-type mapping in `ihex_decode_line`: 0x00 is data, 0x02
extended segment address, 0x04 extended linear address, anything else
`Unknown` carrying the byte. -/
def recordTypeOf (b : Nat) : RecordType :=
  if b = 0x00 then .DAT
  else if b = 0x02 then .ESA
  else if b = 0x04 then .ELA
  else .Unknown b

/-- The byte-pair loop of `ihex_decode_line`:
`(8..line.len()).step_by(2).map(|i| u8::from_str_radix(&line[i..i+2], 16)).collect::<Result<Vec<u8>, _>>()`.
Structural fuel (any fuel at least `line.length - i` gives the loop's
result).  At index `i < line.len()` the slice `line[i..i+2]` panics
when `i + 2 > line.len()`, which happens exactly when the trailing
character count is odd. -/
def decodePairs (line : List Char) : Nat → Nat → RsOutcome (List Nat)
  | 0, _ => .ok []
  | fuel + 1, i =>
    if i < line.length then
      match strSlice line i (i + 2) with
      | none => .oob
      | some p =>
        match parseHexRadix 255 p with
        | none => .failed
        | some b =>
          match decodePairs line fuel (i + 2) with
          | .oob => .oob
          | .failed => .failed
          | .ok rest => .ok (b :: rest)
    else .ok []

/-- `Flasher::ihex_decode_line` from `nrf52833_flasher.rs`, applied to
the line after its leading marker character was stripped: hex-decode
chars [0,2) as the byte count (`usize`), [2,6) as the 16-bit address,
[6,8) as the record-type byte, then all remaining byte pairs as data.
No check relates the declared byte count to the decoded data length. -/
def ihexDecodeLine (line : List Char) : RsOutcome DecodedHex :=
  match strSlice line 0 2 with
  | none => .oob
  | some s1 =>
    match parseHexRadix USIZE_MAX s1 with
    | none => .failed
    | some byte_count =>
      match strSlice line 2 6 with
      | none => .oob
      | some s2 =>
        match parseHexRadix 65535 s2 with
        | none => .failed
        | some address =>
          match strSlice line 6 8 with
          | none => .oob
          | some s3 =>
            match parseHexRadix 255 s3 with
            | none => .failed
            | some record_byte =>
              match decodePairs line line.length 8 with
              | .oob => .oob
              | .failed => .failed
              | .ok byte_data =>
                .ok (DecodedHex.mk line byte_count address
                  (recordTypeOf record_byte) byte_data)

/-- The per-line closure of `ihex_decode_lines`: `&line[1..]` strips
exactly one leading character; on an empty line the byte index 1 is out
of bounds and the slice panics. -/
def ihexDecodeMarkedLine (line : List Char) : RsOutcome DecodedHex :=
  match line with
  | [] => .oob
  | _ :: rest => ihexDecodeLine rest

/-- Helper for `rustLines`: split at every newline character (the
current partial segment is accumulated reversed). -/
def splitNlAux : List Char → List Char → List (List Char)
  | [], acc => [acc.reverse]
  | c :: cs, acc =>
    if c = '\n' then acc.reverse :: splitNlAux cs [] else splitNlAux cs (c :: acc)

/-- Strip one trailing carriage return, as `str::lines` does per line. -/
def stripTrailingCr (l : List Char) : List Char :=
  match l.reverse with
  | [] => []
  | c :: rest => if c = '\r' then rest.reverse else l

/-- Model of Rust `str::lines` (also used by `par_lines`): split at
newlines, drop the final empty segment produced by a trailing newline,
strip one trailing carriage return from each line. -/
def rustLines (cs : List Char) : List (List Char) :=
  let ps := splitNlAux cs []
  let ps := if ps.getLast? = some [] then ps.dropLast else ps
  ps.map stripTrailingCr

/-- Collect a list of fallible-or-panicking per-line results, first
abnormal outcome wins (this sequentializes `rayon`'s
`par_lines().map(…).collect::<Result<…>>`, whose panic/error choice
under simultaneous failures on different lines is
scheduling-dependent; every claim checked here involves at most one
failing line). -/
def collectRs {α β : Type} (f : α → RsOutcome β) : List α → RsOutcome (List β)
  | [] => .ok []
  | a :: rest =>
    match f a with
    | .oob => .oob
    | .failed => .failed
    | .ok b =>
      match collectRs f rest with
      | .oob => .oob
      | .failed => .failed
      | .ok bs => .ok (b :: bs)

/-- `Flasher::ihex_decode_lines` from `nrf52833_flasher.rs`. -/
def ihexDecodeLines (content : List Char) : RsOutcome (List DecodedHex) :=
  collectRs ihexDecodeMarkedLine (rustLines content)

/-! ## Focus transport framed read (api.rs, Focus::read) -/

/-- The response sentinel bytes of the Focus protocol, CR LF `.` CR LF. -/
def eofMarker : List Nat := [13, 10, 46, 13, 10]

/-- Model of Rust `u8::is_ascii_whitespace`: space, tab, newline, form
feed, carriage return. -/
def isAsciiWs (b : Nat) : Bool :=
  b = 32 || b = 9 || b = 10 || b = 12 || b = 13

/-- One iteration of the buffer update in `Focus::read`: append the
newly read bytes, then `retain(|&x| x != 0)` over the whole buffer
(previous contents are already NUL-free, so refiltering them is the
identity). -/
def readStep (buf seg : List Nat) : List Nat :=
  (buf ++ seg).filter (fun b => b != 0)

/-- The accumulation loop of `Focus::read` over the byte segments the
serial stream delivers: a zero-byte read is retried (`Ok(0) =>
continue`); after each nonempty read, NUL bytes are removed and the
loop breaks only when the accumulated buffer ends with the sentinel.
Exhausting the segments without that happening models a read loop that
blocks forever, hence `none`. -/
def focusReadLoop : List (List Nat) → List Nat → Option (List Nat)
  | [], _ => none
  | seg :: rest, buf =>
    if seg.isEmpty then focusReadLoop rest buf
    else
      let buf2 := readStep buf seg
      if eofMarker.isSuffixOf buf2 then some buf2
      else focusReadLoop rest buf2

/-- Position of the first sentinel occurrence, as
`windows(eof_marker.len()).position(|w| w == eof_marker)` computes it. -/
def findSentinel : List Nat → Option Nat
  | [] => none
  | b :: rest =>
    if eofMarker.isPrefixOf (b :: rest) then some 0
    else (findSentinel rest).map (· + 1)

/-- The sentinel-stripping loop of `Focus::read`: repeatedly drain the
first occurrence.  Structural fuel; each removal shortens the buffer by
five bytes, so fuel equal to the buffer length always suffices. -/
def removeSentinelsAux : Nat → List Nat → List Nat
  | 0, buf => buf
  | fuel + 1, buf =>
    match findSentinel buf with
    | none => buf
    | some pos => removeSentinelsAux fuel (buf.take pos ++ buf.drop (pos + 5))

/-- Remove every occurrence of the sentinel, leftmost first. -/
def removeSentinels (buf : List Nat) : List Nat :=
  removeSentinelsAux buf.length buf

/-- The whitespace trim of `Focus::read`: `start` is the first
non-whitespace position (0 if none), `stop` is one past the last
non-whitespace position (0 if none), and the result is the slice
between them. -/
def trimAsciiWs (buf : List Nat) : List Nat :=
  let start := (buf.findIdx? (fun b => !(isAsciiWs b))).getD 0
  let stop :=
    match buf.reverse.findIdx? (fun b => !(isAsciiWs b)) with
    | none => 0
    | some j => buf.length - j
  (buf.drop start).take (stop - start)

/-- `Focus::read` over the sequence of byte segments the underlying
stream delivers: accumulate until the buffer ends with the sentinel,
then strip every sentinel occurrence and trim ASCII whitespace from
both ends.  (The final UTF-8 validation is not modelled; results are
byte sequences.) -/
def focusRead (segs : List (List Nat)) : Option (List Nat) :=
  (focusReadLoop segs []).map (fun buf => trimAsciiWs (removeSentinels buf))

/-- The buffer contents after processing a list of segments, starting
from the empty scratch buffer (the left fold of `readStep`). -/
def accumRead (segs : List (List Nat)) : List Nat :=
  segs.foldl readStep []

/-- Byte encoding of an ASCII string (for concrete protocol examples). -/
def strBytes (s : String) : List Nat := s.data.map Char.toNat

/-! ## Focus command engine (api.rs getters/setters)

The transport is modelled as a transcript state: `writes` logs every
byte string passed to `Focus::write` (in order), and `reads` is an
oracle of the framed response strings successive `Focus::read` calls
return (the framing itself is verified separately above).  Errors are
structured: `outOfRange field value max` stands for the `bail!`
messages of the range-checked setters, which textually carry the
field name, the offending value, and the maximum. -/

/-- Transport transcript: pending read responses and accumulated writes. -/
structure FocusSt where
  reads : List String
  writes : List String
deriving DecidableEq, Repr

/-- Errors of the modelled Focus methods. -/
inductive FErr where
  | outOfRange (field : String) (value mx : Nat)
  | parseFailed
  | noResponse
deriving DecidableEq, Repr

/-- A Focus method: state in, `Result` plus state out (the state is
kept on error too, since transport side effects persist past `bail!`). -/
def FM (α : Type) : Type := FocusSt → Except FErr α × FocusSt

/-- Sequencing with `?`-style error propagation. -/
def fmBind {α β : Type} (m : FM α) (f : α → FM β) : FM β := fun s =>
  match m s with
  | (.error e, s') => (.error e, s')
  | (.ok a, s') => f a s'

/-- A pure result. -/
def fmPure {α : Type} (a : α) : FM α := fun s => (.ok a, s)

/-- `bail!`: return the error, leaving the transcript as is. -/
def ffail {α : Type} (e : FErr) : FM α := fun s => (.error e, s)

/-- `Focus::write`: append the written bytes to the transcript. -/
def fwrite (bytes : String) : FM Unit := fun s =>
  (.ok (), FocusSt.mk s.reads (s.writes ++ [bytes]))

/-- `Focus::read`: return the next framed response from the oracle. -/
def fread : FM String := fun s =>
  match s.reads with
  | [] => (.error .noResponse, s)
  | r :: rs => (.ok r, FocusSt.mk rs s.writes)

/-- `Focus::command_raw`: write the command (with its optional suffix
character) and, when asked, wait for (and discard) one response. -/
def commandRaw (command : String) (suffix : Option Char)
    (waitForResponse : Bool) : FM Unit :=
  fmBind
    (match suffix with
     | some c => fwrite (command.push c)
     | none => fwrite command)
    (fun _ =>
      if waitForResponse then fmBind fread (fun _ => fmPure ()) else fmPure ())

/-- `Focus::command_new_line`: the command with a single `\n` ending. -/
def commandNewLine (command : String) (wait : Bool) : FM Unit :=
  commandRaw command (some '\n') wait

/-- `Focus::command_response_string`. -/
def commandResponseString (command : String) : FM String :=
  fmBind (commandNewLine command false) (fun _ => fread)

/-- `Focus::command_response_numerical` at an unsigned integer type
with maximum value `mx`. -/
def commandResponseNat (mx : Nat) (command : String) : FM Nat :=
  fmBind (commandResponseString command) (fun response =>
    match parseUIntDec mx response.data with
    | some n => fmPure n
    | none => ffail .parseFailed)

/-- A `std::time::Duration`, at millisecond granularity (sufficient for
every command in the API, which uses milliseconds or seconds). -/
structure Dur where
  millis : Nat
deriving DecidableEq, Repr

/-- `Duration::as_secs` (truncating). -/
def Dur.asSecs (d : Dur) : Nat := d.millis / 1000

/-- `Duration::from_secs`. -/
def Dur.fromSecs (s : Nat) : Dur := Dur.mk (s * 1000)

/-- `Focus::command_response_duration` with `TimeUnit::Seconds`: the
numeric response (a `u64`) interpreted as seconds. -/
def commandResponseDurationSecs (command : String) : FM Dur :=
  fmBind (commandResponseNat (2 ^ 64 - 1) command) (fun n =>
    fmPure (Dur.fromSecs n))

/-- `MAX_LAYERS` from `lib.rs`. -/
def MAX_LAYERS : Nat := 10 - 1

/-- `Focus::settings_default_layer_get` (`u8`). -/
def settingsDefaultLayerGet : FM Nat :=
  commandResponseNat 255 "settings.defaultLayer"

/-- `Focus::settings_default_layer_set`: bail when the layer exceeds
`MAX_LAYERS`, then read back and skip the write when unchanged. -/
def settingsDefaultLayerSet (layer : Nat) : FM Unit :=
  if layer > MAX_LAYERS then
    ffail (.outOfRange "Layer" layer MAX_LAYERS)
  else
    fmBind settingsDefaultLayerGet (fun cur =>
      if cur = layer then fmPure ()
      else commandNewLine ("settings.defaultLayer " ++ toString layer) true)

/-- `Focus::superkeys_overlap_get` (`u8`). -/
def superkeysOverlapGet : FM Nat :=
  commandResponseNat 255 "superkeys.overlap"

/-- `Focus::superkeys_overlap_set`: bail above 80 percent. -/
def superkeysOverlapSet (percentage : Nat) : FM Unit :=
  if percentage > 80 then
    ffail (.outOfRange "Percentage" percentage 80)
  else
    fmBind superkeysOverlapGet (fun cur =>
      if cur = percentage then fmPure ()
      else commandNewLine ("superkeys.overlap " ++ toString percentage) true)

/-- `Focus::led_idle_true_sleep_time_get`. -/
def ledIdleTrueSleepTimeGet : FM Dur :=
  commandResponseDurationSecs "idleleds.true_sleep_time"

/-- `Focus::led_idle_true_sleep_time_set`: bail when `as_secs()`
exceeds 65000. -/
def ledIdleTrueSleepTimeSet (duration : Dur) : FM Unit :=
  if duration.asSecs > 65000 then
    ffail (.outOfRange "Seconds" duration.asSecs 65000)
  else
    fmBind ledIdleTrueSleepTimeGet (fun cur =>
      if cur = duration then fmPure ()
      else
        commandNewLine
          ("idleleds.true_sleep_time " ++ toString duration.asSecs) true)

/-- `Focus::led_idle_time_limit_get`. -/
def ledIdleTimeLimitGet : FM Dur :=
  commandResponseDurationSecs "idleleds.time_limit"

/-- `Focus::led_idle_time_limit_set`: bail when `as_secs()` exceeds
65000. -/
def ledIdleTimeLimitSet (duration : Dur) : FM Unit :=
  if duration.asSecs > 65000 then
    ffail (.outOfRange "Duration" duration.asSecs 65000)
  else
    fmBind ledIdleTimeLimitGet (fun cur =>
      if cur = duration then fmPure ()
      else
        commandNewLine ("idleleds.time_limit " ++ toString duration.asSecs) true)

/-- `Focus::mouse_speed_get` (`u8`). -/
def mouseSpeedGet : FM Nat :=
  commandResponseNat 255 "mouse.speed"

/-- `Focus::mouse_speed_set`: bail above 127. -/
def mouseSpeedSet (speed : Nat) : FM Unit :=
  if speed > 127 then
    ffail (.outOfRange "Speed" speed 127)
  else
    fmBind mouseSpeedGet (fun cur =>
      if cur = speed then fmPure ()
      else commandNewLine ("mouse.speed " ++ toString speed) true)

/-- `Focus::keymap_custom_get`: query `keymap.custom` and decode the
numeric vector (`u16` entries). -/
def keymapCustomGet : FM (List Nat) :=
  fmBind (commandResponseString "keymap.custom") (fun data =>
    match string_to_numerical_vec 65535 data.data with
    | .ok v => fmPure v
    | .error _ => ffail .parseFailed)

/-- `Focus::keymap_custom_set`: read back the current keymap via the
getter (which itself writes the query command), return immediately when
it already equals the requested data, otherwise send the set command. -/
def keymapCustomSet (data : List Nat) : FM Unit :=
  fmBind keymapCustomGet (fun cur =>
    if cur = data then fmPure ()
    else
      commandNewLine
        ("keymap.custom " ++ String.mk (numerical_vec_to_string data)) true)

-- ==== END OF DEFINITIONS (theorems follow) ====



/-! ## Lemmas about hex parsing and the byte-pair loop -/

theorem hexCharVal_le (c : Char) (h : isHexDigitChar c = true) : hexCharVal c ≤ 15 := by
  rw [isHexDigitChar] at h
  simp only [Bool.or_eq_true, Bool.and_eq_true, decide_eq_true_eq] at h
  rw [hexCharVal]
  split_ifs <;> omega

theorem hexCharVal_ge_48 (c : Char) (h : isHexDigitChar c = true) : 48 ≤ c.toNat := by
  rw [isHexDigitChar] at h
  simp only [Bool.or_eq_true, Bool.and_eq_true, decide_eq_true_eq] at h
  omega

theorem hexDigitsVal_lt_aux :
    ∀ (cs : List Char) (a : Nat), (∀ c ∈ cs, isHexDigitChar c = true) →
      cs.foldl (fun a c => a * 16 + hexCharVal c) a < (a + 1) * 16 ^ cs.length := by
  intro cs
  induction cs with
  | nil => intro a _; simp
  | cons c rest ih =>
    intro a hall
    have hv : hexCharVal c ≤ 15 := hexCharVal_le c (hall c (List.mem_cons_self _ _))
    have hrec := ih (a * 16 + hexCharVal c) (fun x hx => hall x (List.mem_cons_of_mem _ hx))
    rw [List.foldl_cons, List.length_cons]
    calc List.foldl (fun a c => a * 16 + hexCharVal c) (a * 16 + hexCharVal c) rest
        < (a * 16 + hexCharVal c + 1) * 16 ^ rest.length := hrec
      _ ≤ ((a + 1) * 16) * 16 ^ rest.length := by
          apply Nat.mul_le_mul_right
          omega
      _ = (a + 1) * 16 ^ (rest.length + 1) := by
          rw [pow_succ]
          ring

theorem hexDigitsVal_lt (cs : List Char) (hall : ∀ c ∈ cs, isHexDigitChar c = true) :
    hexDigitsVal cs < 16 ^ cs.length := by
  have := hexDigitsVal_lt_aux cs 0 hall
  simpa [hexDigitsVal] using this

theorem parseHexRadix_of_hex (mx : Nat) (cs : List Char) (hne : cs ≠ [])
    (hall : ∀ c ∈ cs, isHexDigitChar c = true) (hle : hexDigitsVal cs ≤ mx) :
    parseHexRadix mx cs = some (hexDigitsVal cs) := by
  rcases hcons : cs with _ | ⟨c, rest⟩
  · exact absurd hcons hne
  · subst hcons
    have h48 : 48 ≤ c.toNat := hexCharVal_ge_48 c (hall c (List.mem_cons_self _ _))
    have hplus : c ≠ '+' := by
      intro he
      subst he
      exact absurd h48 (by decide)
    have hminus : c ≠ '-' := by
      intro he
      subst he
      exact absurd h48 (by decide)
    rw [parseHexRadix]
    rw [if_neg hplus, if_neg hminus, parsePosHexDigits, if_pos]
    refine ⟨by simp, ?_, hle⟩
    rw [List.all_eq_true]
    exact hall

theorem strSlice_inv (cs : List Char) (a b : Nat) (s : List Char)
    (h : strSlice cs a b = some s) :
    a ≤ b ∧ b ≤ cs.length ∧ s = (cs.drop a).take (b - a) := by
  rw [strSlice] at h
  split at h
  · rename_i hc
    injection h with h
    exact ⟨hc.1, hc.2, h.symm⟩
  · simp at h

theorem strSlice_some (cs : List Char) (a b : Nat) (hab : a ≤ b) (hb : b ≤ cs.length) :
    strSlice cs a b = some ((cs.drop a).take (b - a)) := by
  rw [strSlice, if_pos ⟨hab, hb⟩]

theorem strSlice_none (cs : List Char) (a b : Nat) (hb : cs.length < b) :
    strSlice cs a b = none := by
  rw [strSlice, if_neg]
  intro hc
  omega

/-- Existence and shape of a successful hex parse of the slice
`[a, a+k)` of an all-hex line. -/
theorem parseHex_slice (line : List Char) (hall : ∀ c ∈ line, isHexDigitChar c = true)
    (a k mx : Nat) (hlen : a + k ≤ line.length) (hk : 0 < k) (hmx : 16 ^ k ≤ mx + 1) :
    ∃ v, parseHexRadix mx ((line.drop a).take k) = some v := by
  have hplen : ((line.drop a).take k).length = k := by
    rw [List.length_take, List.length_drop]
    omega
  have hpall : ∀ c ∈ (line.drop a).take k, isHexDigitChar c = true := fun c hc =>
    hall c (List.drop_subset a line (List.take_subset k _ hc))
  have hv : hexDigitsVal ((line.drop a).take k) < 16 ^ k := by
    have := hexDigitsVal_lt _ hpall
    rwa [hplen] at this
  refine ⟨_, parseHexRadix_of_hex mx _ ?_ hpall (by omega)⟩
  intro he
  rw [he] at hplen
  simp at hplen
  omega

theorem decodePairs_ok_spec (line : List Char) :
    ∀ (fuel i : Nat) (bs : List Nat), line.length - i ≤ fuel →
      decodePairs line fuel i = .ok bs →
      (line.length - i) % 2 = 0 ∧ bs.length = (line.length - i) / 2 := by
  intro fuel
  induction fuel with
  | zero =>
    intro i bs hf h
    have h0 : line.length - i = 0 := by omega
    rw [decodePairs] at h
    injection h with h
    subst h
    simp [h0]
  | succ fuel ih =>
    intro i bs hf h
    rw [decodePairs] at h
    by_cases hi : i < line.length
    · rw [if_pos hi] at h
      rcases hs : strSlice line i (i + 2) with _ | p
      · simp only [hs] at h
        exact RsOutcome.noConfusion h
      · simp only [hs] at h
        rcases hp : parseHexRadix 255 p with _ | b
        · simp only [hp] at h
          exact RsOutcome.noConfusion h
        · simp only [hp] at h
          rcases hd : decodePairs line fuel (i + 2) with _ | _ | rest
          · simp only [hd] at h
            exact RsOutcome.noConfusion h
          · simp only [hd] at h
            exact RsOutcome.noConfusion h
          · simp only [hd] at h
            injection h with h
            subst h
            have hi2 : i + 2 ≤ line.length := (strSlice_inv line i (i + 2) p hs).2.1
            have hrec := ih (i + 2) rest (by omega) hd
            rcases hrec with ⟨hpar, hlen⟩
            constructor
            · omega
            · rw [List.length_cons, hlen]
              omega
    · rw [if_neg hi] at h
      injection h with h
      subst h
      constructor
      · omega
      · simp
        omega

theorem decodePairs_ne_oob (line : List Char) :
    ∀ (fuel i : Nat), (line.length - i) % 2 = 0 →
      decodePairs line fuel i ≠ .oob := by
  intro fuel
  induction fuel with
  | zero =>
    intro i _
    rw [decodePairs]
    simp
  | succ fuel ih =>
    intro i hpar
    rw [decodePairs]
    by_cases hi : i < line.length
    · rw [if_pos hi]
      have hi2 : i + 2 ≤ line.length := by omega
      rw [strSlice_some line i (i + 2) (by omega) hi2]
      have h2 : i + 2 - i = 2 := by omega
      rw [h2]
      rcases hp : parseHexRadix 255 ((line.drop i).take 2) with _ | b
      · simp [hp]
      · have hrec := ih (i + 2) (by omega)
        rcases hd : decodePairs line fuel (i + 2) with _ | _ | rest
        · exact absurd hd hrec
        · simp [hp, hd]
        · simp [hp, hd]
    · rw [if_neg hi]
      simp

theorem decodePairs_oob_of_odd (line : List Char)
    (hall : ∀ c ∈ line, isHexDigitChar c = true) :
    ∀ (fuel i : Nat), (line.length - i) % 2 = 1 → line.length - i ≤ fuel →
      decodePairs line fuel i = .oob := by
  intro fuel
  induction fuel with
  | zero =>
    intro i hpar hf
    omega
  | succ fuel ih =>
    intro i hpar hf
    rw [decodePairs]
    have hi : i < line.length := by omega
    rw [if_pos hi]
    by_cases h1 : line.length - i = 1
    · rw [strSlice_none line i (i + 2) (by omega)]
    · have hi2 : i + 2 ≤ line.length := by omega
      rw [strSlice_some line i (i + 2) (by omega) hi2]
      have h2 : i + 2 - i = 2 := by omega
      rw [h2]
      rcases parseHex_slice line hall i 2 255 (by omega) (by norm_num) (by norm_num)
        with ⟨v, hv⟩
      simp only [hv, ih (i + 2) (by omega) (by omega)]


/-! ## Lemmas about decimal rendering -/

theorem natToDecAux_congr :
    ∀ (fuel fuel' n : Nat) (acc : List Char), n ≤ fuel → n ≤ fuel' →
      natToDecAux fuel n acc = natToDecAux fuel' n acc := by
  intro fuel
  induction fuel with
  | zero =>
    intro fuel' n acc hf hf'
    have hn : n = 0 := Nat.le_zero.mp hf
    subst hn
    cases fuel' with
    | zero => rfl
    | succ f => rw [natToDecAux, natToDecAux]; simp
  | succ fuel ih =>
    intro fuel' n acc hf hf'
    by_cases h : n < 10
    · cases fuel' with
      | zero =>
        have hn : n = 0 := Nat.le_zero.mp hf'
        subst hn
        rw [natToDecAux, natToDecAux]
        simp
      | succ f => rw [natToDecAux, natToDecAux]; simp [h]
    · cases fuel' with
      | zero => omega
      | succ f =>
        rw [natToDecAux, natToDecAux]
        simp only [h, if_false]
        have hd : n / 10 < n :=
          Nat.div_lt_self (by omega) (by norm_num)
        exact ih f (n / 10) _ (by omega) (by omega)

theorem natToDec_of_lt (n : Nat) (h : n < 10) :
    natToDec n = [Char.ofNat (48 + n % 10)] := by
  cases n with
  | zero => rfl
  | succ m =>
    rw [natToDec, natToDecAux]
    simp [h]

theorem natToDecAux_append :
    ∀ (fuel n : Nat) (acc : List Char), n ≤ fuel →
      natToDecAux fuel n acc = natToDec n ++ acc := by
  intro fuel
  induction fuel with
  | zero =>
    intro n acc hf
    have hn : n = 0 := Nat.le_zero.mp hf
    subst hn
    rw [natToDecAux, natToDec_of_lt 0 (by norm_num)]
    rfl
  | succ fuel ih =>
    intro n acc hf
    by_cases h : n < 10
    · rw [natToDecAux, natToDec_of_lt n h]
      simp [h]
    · have hd : n / 10 < n := Nat.div_lt_self (by omega) (by norm_num)
      rw [natToDecAux]
      simp only [h, if_false]
      rw [ih (n / 10) _ (by omega)]
      have hrhs : natToDec n = natToDec (n / 10) ++ [Char.ofNat (48 + n % 10)] := by
        rcases Nat.exists_eq_succ_of_ne_zero (show n ≠ 0 by omega) with ⟨m, hm⟩
        rw [natToDec]
        conv_lhs => rw [hm, natToDecAux]
        rw [← hm]
        simp only [h, if_false]
        have hcg : natToDecAux m (n / 10) [Char.ofNat (48 + n % 10)]
            = natToDecAux fuel (n / 10) [Char.ofNat (48 + n % 10)] :=
          natToDecAux_congr m fuel (n / 10) _ (by omega) (by omega)
        rw [hcg, ih (n / 10) _ (by omega)]
      rw [hrhs]
      simp

theorem natToDec_of_ge (n : Nat) (h : ¬ n < 10) :
    natToDec n = natToDec (n / 10) ++ [Char.ofNat (48 + n % 10)] := by
  rcases Nat.exists_eq_succ_of_ne_zero (show n ≠ 0 by omega) with ⟨m, hm⟩
  rw [natToDec]
  conv_lhs => rw [hm, natToDecAux]
  rw [← hm]
  simp only [h, if_false]
  rw [natToDecAux_congr m (n / 10) (n / 10) _ (by omega) (Nat.le_refl _)]
  rw [natToDecAux_append (n / 10) (n / 10) _ (Nat.le_refl _)]

theorem digitChar_isDigit (d : Nat) (h : d < 10) :
    (Char.ofNat (48 + d)).isDigit = true := by
  interval_cases d <;> decide

theorem digitChar_toNat (d : Nat) (h : d < 10) :
    (Char.ofNat (48 + d)).toNat = 48 + d := by
  interval_cases d <;> decide

theorem digitChar_not_ws (d : Nat) (h : d < 10) :
    rustIsWhitespace (Char.ofNat (48 + d)) = false := by
  interval_cases d <;> decide

theorem natToDec_ne_nil (n : Nat) : natToDec n ≠ [] := by
  by_cases h : n < 10
  · rw [natToDec_of_lt n h]; simp
  · rw [natToDec_of_ge n h]; simp

theorem natToDec_all_digits (n : Nat) : ∀ c ∈ natToDec n, c.isDigit = true := by
  induction n using Nat.strong_induction_on with
  | _ n ih =>
    by_cases h : n < 10
    · rw [natToDec_of_lt n h]
      intro c hc
      rw [List.mem_singleton] at hc
      subst hc
      exact digitChar_isDigit _ (Nat.mod_lt _ (by norm_num))
    · have hd : n / 10 < n :=
        Nat.div_lt_self (Nat.lt_of_lt_of_le (by norm_num) (Nat.le_of_not_lt h)) (by norm_num)
      rw [natToDec_of_ge n h]
      intro c hc
      rcases List.mem_append.mp hc with hc | hc
      · exact ih (n / 10) hd c hc
      · rw [List.mem_singleton] at hc
        subst hc
        exact digitChar_isDigit _ (Nat.mod_lt _ (by norm_num))

theorem natToDec_no_ws (n : Nat) : ∀ c ∈ natToDec n, rustIsWhitespace c = false := by
  intro c hc
  have hd := natToDec_all_digits n c hc
  have h48 : 48 ≤ c.toNat ∧ c.toNat ≤ 57 := by
    rw [Char.isDigit] at hd
    constructor
    · exact Nat.le_of_ble_eq_true (by
        rcases Bool.and_eq_true_iff.mp hd with ⟨h1, _⟩
        simpa using h1)
    · rcases Bool.and_eq_true_iff.mp hd with ⟨_, h2⟩
      simpa using Nat.le_of_ble_eq_true (by simpa using h2)
  rcases h48 with ⟨h1, h2⟩
  rw [rustIsWhitespace]
  have hne : ∀ m : Nat, m < 48 → c.toNat = m → False := fun m hm he => by omega
  simp only [Bool.or_eq_false_iff]
  refine ⟨⟨⟨⟨⟨?_, ?_⟩, ?_⟩, ?_⟩, ?_⟩, ?_⟩ <;>
    · rw [decide_eq_false_iff_not]
      intro he
      subst he
      simp at h1

theorem decDigitsVal_append (xs : List Char) (c : Char) :
    decDigitsVal (xs ++ [c]) = decDigitsVal xs * 10 + decDigitVal c := by
  rw [decDigitsVal, decDigitsVal, List.foldl_append]
  rfl

theorem decDigitsVal_natToDec (n : Nat) : decDigitsVal (natToDec n) = n := by
  induction n using Nat.strong_induction_on with
  | _ n ih =>
    by_cases h : n < 10
    · rw [natToDec_of_lt n h, decDigitsVal]
      simp only [List.foldl_cons, List.foldl_nil]
      rw [decDigitVal, digitChar_toNat _ (Nat.mod_lt _ (by norm_num))]
      omega
    · have hd : n / 10 < n :=
        Nat.div_lt_self (Nat.lt_of_lt_of_le (by norm_num) (Nat.le_of_not_lt h)) (by norm_num)
      rw [natToDec_of_ge n h, decDigitsVal_append, ih (n / 10) hd]
      rw [decDigitVal, digitChar_toNat _ (Nat.mod_lt _ (by norm_num))]
      omega

theorem parseUIntDec_natToDec (mx n : Nat) (h : n ≤ mx) :
    parseUIntDec mx (natToDec n) = some n := by
  have hall := natToDec_all_digits n
  have hval := decDigitsVal_natToDec n
  have hne := natToDec_ne_nil n
  rcases hcons : natToDec n with _ | ⟨c, rest⟩
  · exact absurd hcons hne
  · have hcd : c.isDigit = true := by
      apply hall
      rw [hcons]
      exact List.mem_cons_self _ _
    have hplus : c ≠ '+' := by
      intro he
      subst he
      simp [Char.isDigit] at hcd
    have hminus : c ≠ '-' := by
      intro he
      subst he
      simp [Char.isDigit] at hcd
    rw [parseUIntDec]
    simp only [hplus, hminus, if_false]
    rw [parsePosDigits]
    rw [if_pos]
    · rw [← hcons, hval]
    · refine ⟨by simp, ?_, ?_⟩
      · rw [List.all_eq_true, ← hcons]
        exact hall
      · rw [← hcons, hval]
        exact h

/-! ## Lemmas about split_whitespace -/

theorem splitWsAux_token (tok : List Char) (hws : ∀ c ∈ tok, rustIsWhitespace c = false) :
    ∀ cs acc, splitWsAux (tok ++ cs) acc = splitWsAux cs (tok.reverse ++ acc) := by
  induction tok with
  | nil => intro cs acc; simp
  | cons c tok' ih =>
    intro cs acc
    have hc : rustIsWhitespace c = false := hws c (List.mem_cons_self _ _)
    have h' : ∀ c ∈ tok', rustIsWhitespace c = false := fun c hc => hws c (List.mem_cons_of_mem _ hc)
    rw [List.cons_append, splitWsAux, hc]
    simp only [Bool.false_eq_true, if_false]
    rw [ih h' cs (c :: acc)]
    simp

theorem splitWs_joinSpace :
    ∀ toks : List (List Char),
      (∀ t ∈ toks, t ≠ [] ∧ ∀ c ∈ t, rustIsWhitespace c = false) →
      splitWs (joinSpace toks) = toks := by
  intro toks
  induction toks with
  | nil => intro _; rfl
  | cons t rest ih =>
    intro hws
    rcases hws t (List.mem_cons_self _ _) with ⟨htne, htws⟩
    have hrest := fun x hx => hws x (List.mem_cons_of_mem _ hx)
    cases rest with
    | nil =>
      show splitWsAux (joinSpace [t]) [] = [t]
      rw [joinSpace]
      have := splitWsAux_token t htws [] []
      rw [List.append_nil] at this
      rw [this, splitWsAux]
      have : (t.reverse ++ []).isEmpty = false := by
        simp [List.isEmpty_iff, htne]
      rw [this]
      simp
    | cons t2 ts =>
      show splitWsAux (joinSpace (t :: t2 :: ts)) [] = t :: t2 :: ts
      rw [joinSpace, splitWsAux_token t htws _ []]
      rw [splitWsAux]
      have hsp : rustIsWhitespace ' ' = true := by decide
      rw [hsp]
      simp only [if_true]
      have hacc : (t.reverse ++ []).isEmpty = false := by
        simp [List.isEmpty_iff, htne]
      rw [hacc]
      simp only [Bool.false_eq_true, if_false]
      have : splitWsAux (joinSpace (t2 :: ts)) [] = t2 :: ts := ih hrest
      rw [this]
      simp

/-! ## Lemmas about collectMap and chunksOf -/

theorem collectMap_map_ok {β ε α : Type} (f : β → Except ε α) :
    ∀ (l : List β) (v : List α),
      (∀ p ∈ l.zip v, f p.1 = .ok p.2) → l.length = v.length →
      collectMap f l = .ok v := by
  intro l
  induction l with
  | nil =>
    intro v _ hlen
    cases v with
    | nil => rfl
    | cons _ _ => simp at hlen
  | cons b bs ih =>
    intro v hz hlen
    cases v with
    | nil => simp at hlen
    | cons a rest =>
      have hb : f b = .ok a := hz (b, a) (by simp [List.zip_cons_cons])
      have hrest : collectMap f bs = .ok rest := by
        apply ih
        · intro p hp
          exact hz p (by simp [List.zip_cons_cons, hp])
        · simpa using hlen
      rw [collectMap, hb, hrest]

theorem chunksOfAux_congr {α : Type} (n : Nat) (hn : 0 < n) :
    ∀ (fuel fuel' : Nat) (l : List α), l.length ≤ fuel → l.length ≤ fuel' →
      chunksOfAux n fuel l = chunksOfAux n fuel' l := by
  intro fuel
  induction fuel with
  | zero =>
    intro fuel' l hf hf'
    have : l = [] := List.eq_nil_of_length_eq_zero (Nat.le_zero.mp hf)
    subst this
    cases fuel' <;> rfl
  | succ fuel ih =>
    intro fuel' l hf hf'
    cases l with
    | nil => cases fuel' <;> rfl
    | cons x xs =>
      cases fuel' with
      | zero => simp at hf'
      | succ f =>
        rw [chunksOfAux, chunksOfAux]
        have hb : (x :: xs).length = xs.length + 1 := rfl
        rw [hb] at hf hf'
        have hlen : ((x :: xs).drop n).length ≤ fuel := by
          rw [List.length_drop, hb]
          omega
        have hlen' : ((x :: xs).drop n).length ≤ f := by
          rw [List.length_drop, hb]
          omega
        rw [ih f _ hlen hlen']

theorem chunksOf_nil {α : Type} (n : Nat) : chunksOf n ([] : List α) = [] := rfl

theorem chunksOf_cons {α : Type} (n : Nat) (hn : n ≠ 0) (l : List α) (hl : l ≠ []) :
    chunksOf n l = l.take n :: chunksOf n (l.drop n) := by
  rcases l with _ | ⟨x, xs⟩
  · exact absurd rfl hl
  · show chunksOfAux n (xs.length + 1) (x :: xs) = _
    rw [chunksOfAux]
    have hb : (x :: xs).length = xs.length + 1 := rfl
    have : chunksOfAux n xs.length ((x :: xs).drop n)
        = chunksOfAux n ((x :: xs).drop n).length ((x :: xs).drop n) := by
      apply chunksOfAux_congr n (Nat.pos_of_ne_zero hn)
      · rw [List.length_drop, hb]
        have : 0 < n := Nat.pos_of_ne_zero hn
        omega
      · exact Nat.le_refl _
    rw [this]
    rfl

theorem sub_mod_ne_zero {n : Nat} (m : Nat) (hge : n ≤ m) (hmod : m % n ≠ 0) :
    (m - n) % n ≠ 0 := by
  have h1 : m - n + n = m := Nat.sub_add_cancel hge
  rw [← h1, Nat.add_mod_right] at hmod
  exact hmod

theorem collectMap_chunks_err_aux {α β : Type} (n : Nat) (hn : 0 < n)
    (f : List α → Except HErr β)
    (hbad : ∀ c : List α, c.length ≠ n → ∃ e, f c = .error e) :
    ∀ (L : Nat) (toks : List α), toks.length ≤ L → toks.length % n ≠ 0 →
      ∃ e, collectMap f (chunksOf n toks) = .error e := by
  intro L
  induction L with
  | zero =>
    intro toks hle hmod
    have : toks = [] := List.eq_nil_of_length_eq_zero (Nat.le_zero.mp hle)
    subst this
    simp at hmod
  | succ L ih =>
    intro toks hle hmod
    have hne : toks ≠ [] := by
      intro he
      subst he
      simp at hmod
    rw [chunksOf_cons n (Nat.pos_iff_ne_zero.mp hn) toks hne]
    by_cases hlt : toks.length < n
    · have hlen : (toks.take n).length ≠ n := by
        rw [List.length_take]
        omega
      rcases hbad _ hlen with ⟨e, he⟩
      exact ⟨e, by rw [collectMap, he]⟩
    · rcases hf : f (toks.take n) with e | b
      · exact ⟨e, by rw [collectMap, hf]⟩
      · have hdlen : (toks.drop n).length % n ≠ 0 := by
          rw [List.length_drop]
          exact sub_mod_ne_zero _ (Nat.le_of_not_lt hlt) hmod
        have hdle : (toks.drop n).length ≤ L := by
          rw [List.length_drop]
          omega
        rcases ih (toks.drop n) hdle hdlen with ⟨e, he⟩
        refine ⟨e, ?_⟩
        rw [collectMap, hf, he]

theorem collectMap_chunks_err {α β : Type} (n : Nat) (hn : 0 < n)
    (f : List α → Except HErr β)
    (hbad : ∀ c : List α, c.length ≠ n → ∃ e, f c = .error e) :
    ∀ toks : List α, toks.length % n ≠ 0 →
      ∃ e, collectMap f (chunksOf n toks) = .error e := fun toks =>
  collectMap_chunks_err_aux n hn f hbad toks.length toks (Nat.le_refl _)

theorem collectMap_chunks_invalid_aux {α β : Type} (n : Nat) (hn : 0 < n)
    (f : List α → Except HErr β) (ecnt : HErr) (P : α → Prop)
    (hbad : ∀ c : List α, c.length ≠ n → f c = .error ecnt)
    (hgood : ∀ c : List α, c.length = n → (∀ t ∈ c, P t) → ∃ b, f c = .ok b) :
    ∀ (L : Nat) (toks : List α), toks.length ≤ L → (∀ t ∈ toks, P t) →
      toks.length % n ≠ 0 →
      collectMap f (chunksOf n toks) = .error ecnt := by
  intro L
  induction L with
  | zero =>
    intro toks hle _ hmod
    have : toks = [] := List.eq_nil_of_length_eq_zero (Nat.le_zero.mp hle)
    subst this
    simp at hmod
  | succ L ih =>
    intro toks hle hP hmod
    have hne : toks ≠ [] := by
      intro he
      subst he
      simp at hmod
    rw [chunksOf_cons n (Nat.pos_iff_ne_zero.mp hn) toks hne]
    by_cases hlt : toks.length < n
    · have hlen : (toks.take n).length ≠ n := by
        rw [List.length_take]
        omega
      rw [collectMap, hbad _ hlen]
    · have hlen : (toks.take n).length = n := by
        rw [List.length_take]
        omega
      rcases hgood _ hlen (fun t ht => hP t (List.take_subset n toks ht)) with ⟨b, hb⟩
      have hdlen : (toks.drop n).length % n ≠ 0 := by
        rw [List.length_drop]
        exact sub_mod_ne_zero _ (Nat.le_of_not_lt hlt) hmod
      have hdle : (toks.drop n).length ≤ L := by
        rw [List.length_drop]
        omega
      have hrec := ih (toks.drop n) hdle
        (fun t ht => hP t (List.drop_subset n toks ht)) hdlen
      rw [collectMap, hb, hrec]

theorem collectMap_chunks_invalid {α β : Type} (n : Nat) (hn : 0 < n)
    (f : List α → Except HErr β) (ecnt : HErr) (P : α → Prop)
    (hbad : ∀ c : List α, c.length ≠ n → f c = .error ecnt)
    (hgood : ∀ c : List α, c.length = n → (∀ t ∈ c, P t) → ∃ b, f c = .ok b) :
    ∀ toks : List α, (∀ t ∈ toks, P t) → toks.length % n ≠ 0 →
      collectMap f (chunksOf n toks) = .error ecnt := fun toks hP =>
  collectMap_chunks_invalid_aux n hn f ecnt P hbad hgood toks.length toks (Nat.le_refl _) hP

/-! ## Claim C9: numeric vector round-trip -/

theorem collectMap_parse_natToDec (mx : Nat) :
    ∀ v : List Nat, (∀ x ∈ v, x ≤ mx) →
      collectMap
        (fun tok =>
          match parseUIntDec mx tok with
          | some n => Except.ok n
          | none => Except.error HErr.parseFailed)
        (v.map natToDec) = .ok v := by
  intro v
  induction v with
  | nil => intro _; rfl
  | cons a rest ih =>
    intro h
    rw [List.map_cons, collectMap]
    rw [parseUIntDec_natToDec mx a (h a (List.mem_cons_self _ _))]
    rw [ih (fun x hx => h x (List.mem_cons_of_mem _ hx))]

/-- C9: for every vector of small unsigned integers (each value within
the numeric type's range), `string_to_numerical_vec` applied to
`numerical_vec_to_string` of the vector returns `Ok` of the original
vector exactly. -/
theorem numeric_vec_roundtrip (mx : Nat) (v : List Nat) (h : ∀ x ∈ v, x ≤ mx) :
    string_to_numerical_vec mx (numerical_vec_to_string v) = .ok v := by
  rw [string_to_numerical_vec, numerical_vec_to_string]
  have hs : splitWs (joinSpace (v.map natToDec)) = v.map natToDec := by
    apply splitWs_joinSpace
    intro t ht
    rcases List.mem_map.mp ht with ⟨x, _, hx⟩
    subst hx
    exact ⟨natToDec_ne_nil x, natToDec_no_ws x⟩
  rw [hs]
  exact collectMap_parse_natToDec mx v h

/-- Witness for C9 at the spec's example vector, also checking the
intermediate encoded string. -/
theorem numeric_vec_roundtrip_witness :
    (∀ x ∈ ([41, 30, 31, 32, 33, 34, 35, 0, 0] : List Nat), x ≤ 255)
    ∧ string_to_numerical_vec 255 (numerical_vec_to_string [41, 30, 31, 32, 33, 34, 35, 0, 0])
        = .ok [41, 30, 31, 32, 33, 34, 35, 0, 0]
    ∧ numerical_vec_to_string [41, 30, 31, 32, 33, 34, 35, 0, 0]
        = "41 30 31 32 33 34 35 0 0".data :=
  ⟨by decide, numeric_vec_roundtrip 255 _ (by decide), by decide⟩

/-! ## Claim C8: RGB / RGBW vector decoding -/

/-- C8 (counterexample): the input `"zz 1 2 3"` has 4 tokens, not a
multiple of 3, yet `string_to_rgb_vec` returns the token parse error
(the `ParseIntError` from `"zz".parse::<u8>()`), not the invalid-count
("malformed vector") error, because the first complete group of three
tokens is parsed before the short remainder group is reached. -/
theorem rgb_vec_error_kind_cex :
    (splitWs "zz 1 2 3".data).length % 3 = 1
    ∧ string_to_rgb_vec "zz 1 2 3".data = .error .parseFailed
    ∧ HErr.parseFailed ≠ HErr.invalidCountRgb :=
  ⟨by decide, by rfl, by decide⟩

/-- C8 (amended): `string_to_rgb_vec` groups whitespace-separated
decimal tokens in threes (`string_to_rgbw_vec` in fours); the 9-token
example decodes to the three stated RGB values; an input whose token
count is not a multiple of the group size always returns an error, and
that error is the invalid-count ("malformed vector") error whenever
every token parses as a `u8` (a malformed token inside an earlier
complete group yields that token's parse error instead). -/
theorem rgb_rgbw_grouping (cs csw : List Char) :
    string_to_rgb_vec "255 196 0 0 0 254 24 0 0".data
      = .ok [RGB.mk 255 196 0, RGB.mk 0 0 254, RGB.mk 24 0 0]
    ∧ ((splitWs cs).length % 3 ≠ 0 → ∃ e, string_to_rgb_vec cs = .error e)
    ∧ ((∀ t ∈ splitWs cs, (parseUIntDec 255 t).isSome = true) →
        (splitWs cs).length % 3 ≠ 0 → string_to_rgb_vec cs = .error .invalidCountRgb)
    ∧ ((splitWs csw).length % 4 ≠ 0 → ∃ e, string_to_rgbw_vec csw = .error e)
    ∧ ((∀ t ∈ splitWs csw, (parseUIntDec 255 t).isSome = true) →
        (splitWs csw).length % 4 ≠ 0 → string_to_rgbw_vec csw = .error .invalidCountRgbw) := by
  refine ⟨by rfl, ?_, ?_, ?_, ?_⟩
  · intro hmod
    apply collectMap_chunks_err 3 (by norm_num) _ ?hbad (splitWs cs) hmod
    case hbad =>
      intro c hlen
      rcases c with _ | ⟨a, _ | ⟨b, _ | ⟨c3, _ | ⟨d, t⟩⟩⟩⟩
      · exact ⟨.invalidCountRgb, rfl⟩
      · exact ⟨.invalidCountRgb, rfl⟩
      · exact ⟨.invalidCountRgb, rfl⟩
      · simp at hlen
      · exact ⟨.invalidCountRgb, rfl⟩
  · intro hP hmod
    apply collectMap_chunks_invalid 3 (by norm_num) _ .invalidCountRgb
      (fun t => (parseUIntDec 255 t).isSome = true) ?hbad ?hgood (splitWs cs) hP hmod
    case hbad =>
      intro c hlen
      rcases c with _ | ⟨a, _ | ⟨b, _ | ⟨c3, _ | ⟨d, t⟩⟩⟩⟩
      · rfl
      · rfl
      · rfl
      · simp at hlen
      · rfl
    case hgood =>
      intro c hlen hPc
      rcases c with _ | ⟨a, _ | ⟨b, _ | ⟨c3, _ | ⟨d, t⟩⟩⟩⟩ <;> simp at hlen
      rcases Option.isSome_iff_exists.mp (hPc a (by simp)) with ⟨ra, hra⟩
      rcases Option.isSome_iff_exists.mp (hPc b (by simp)) with ⟨rb, hrb⟩
      rcases Option.isSome_iff_exists.mp (hPc c3 (by simp)) with ⟨rc, hrc⟩
      exact ⟨RGB.mk ra rb rc, by simp [hra, hrb, hrc]⟩
  · intro hmod
    apply collectMap_chunks_err 4 (by norm_num) _ ?hbadw (splitWs csw) hmod
    case hbadw =>
      intro c hlen
      rcases c with _ | ⟨a, _ | ⟨b, _ | ⟨c3, _ | ⟨d, _ | ⟨e5, t⟩⟩⟩⟩⟩
      · exact ⟨.invalidCountRgbw, rfl⟩
      · exact ⟨.invalidCountRgbw, rfl⟩
      · exact ⟨.invalidCountRgbw, rfl⟩
      · exact ⟨.invalidCountRgbw, rfl⟩
      · simp at hlen
      · exact ⟨.invalidCountRgbw, rfl⟩
  · intro hP hmod
    apply collectMap_chunks_invalid 4 (by norm_num) _ .invalidCountRgbw
      (fun t => (parseUIntDec 255 t).isSome = true) ?hbadw ?hgoodw (splitWs csw) hP hmod
    case hbadw =>
      intro c hlen
      rcases c with _ | ⟨a, _ | ⟨b, _ | ⟨c3, _ | ⟨d, _ | ⟨e5, t⟩⟩⟩⟩⟩
      · rfl
      · rfl
      · rfl
      · rfl
      · simp at hlen
      · rfl
    case hgoodw =>
      intro c hlen hPc
      rcases c with _ | ⟨a, _ | ⟨b, _ | ⟨c3, _ | ⟨d, _ | ⟨e5, t⟩⟩⟩⟩⟩ <;> simp at hlen
      rcases Option.isSome_iff_exists.mp (hPc a (by simp)) with ⟨ra, hra⟩
      rcases Option.isSome_iff_exists.mp (hPc b (by simp)) with ⟨rb, hrb⟩
      rcases Option.isSome_iff_exists.mp (hPc c3 (by simp)) with ⟨rc, hrc⟩
      rcases Option.isSome_iff_exists.mp (hPc d (by simp)) with ⟨rd, hrd⟩
      exact ⟨RGBW.mk ra rb rc rd, by simp [hra, hrb, hrc, hrd]⟩

/-- Witness for the amended C8 at concrete non-multiple token counts. -/
theorem rgb_rgbw_grouping_witness :
    ((splitWs "1 2 3 4".data).length % 3 ≠ 0)
    ∧ string_to_rgb_vec "1 2 3 4".data = .error .invalidCountRgb
    ∧ ((splitWs "1 2 3 4 5".data).length % 4 ≠ 0)
    ∧ string_to_rgbw_vec "1 2 3 4 5".data = .error .invalidCountRgbw := by
  have h := rgb_rgbw_grouping "1 2 3 4".data "1 2 3 4 5".data
  exact ⟨by decide, h.2.2.1 (by decide) (by decide), by decide,
    h.2.2.2.2 (by decide) (by decide)⟩

/-! ## Claim C2: chunk framing -/

theorem chunksOf_length_aux {α : Type} (n : Nat) (hn : 0 < n) :
    ∀ (L : Nat) (l : List α), l.length ≤ L →
      (chunksOf n l).length = (l.length + n - 1) / n := by
  intro L
  induction L with
  | zero =>
    intro l hle
    have : l = [] := List.eq_nil_of_length_eq_zero (Nat.le_zero.mp hle)
    subst this
    rw [chunksOf_nil]
    simp only [List.length_nil, Nat.zero_add]
    exact (Nat.div_eq_of_lt (by omega)).symm
  | succ L ih =>
    intro l hle
    rcases eq_or_ne l [] with he | hne
    · subst he
      rw [chunksOf_nil]
      simp only [List.length_nil, Nat.zero_add]
      exact (Nat.div_eq_of_lt (by omega)).symm
    · have hm : 0 < l.length := List.length_pos.mpr hne
      rw [chunksOf_cons n (by omega) l hne, List.length_cons,
        ih (l.drop n) (by rw [List.length_drop]; omega), List.length_drop]
      by_cases hc : l.length ≤ n
      · have h1 : l.length - n = 0 := by omega
        have h2 : (n - 1) / n = 0 := Nat.div_eq_of_lt (by omega)
        have h3 : (l.length + n - 1) / n = 1 :=
          Nat.div_eq_of_lt_le (by omega) (by omega)
        rw [h1, Nat.zero_add, h2, h3]
      · have h1 : l.length - n + n - 1 = l.length - 1 := by omega
        have h4 : l.length - 1 + n = l.length + n - 1 := by omega
        rw [h1, ← Nat.add_div_right (l.length - 1) hn, h4]

theorem chunksOf_getElem {α : Type} (n : Nat) (hn : 0 < n) :
    ∀ (L : Nat) (l : List α), l.length ≤ L →
      ∀ i : Nat, i < (chunksOf n l).length →
        (chunksOf n l)[i]? = some ((l.drop (i * n)).take n) := by
  intro L
  induction L with
  | zero =>
    intro l hle i hi
    have : l = [] := List.eq_nil_of_length_eq_zero (Nat.le_zero.mp hle)
    subst this
    rw [chunksOf_nil] at hi
    simp at hi
  | succ L ih =>
    intro l hle i hi
    rcases eq_or_ne l [] with he | hne
    · subst he
      rw [chunksOf_nil] at hi
      simp at hi
    · have hcons := chunksOf_cons n (by omega) l hne
      rw [hcons]
      cases i with
      | zero => simp
      | succ i =>
        rw [List.getElem?_cons_succ]
        have hi' : i < (chunksOf n (l.drop n)).length := by
          rw [hcons, List.length_cons] at hi
          omega
        rw [ih (l.drop n) (by rw [List.length_drop]; omega) i hi']
        rw [List.drop_drop, Nat.succ_mul, Nat.add_comm n (i * n)]

/-- C2: `prepare_chunks` on an input of `n` bytes returns exactly
`ceil(n / 256)` chunks; chunk `i` is the 4-byte little-endian offset
`i * 256`, then the 4-byte little-endian length of the i-th 256-byte
(final possibly shorter) slice, then that slice, then the 4-byte
little-endian CRC-32 of that slice only; and for any 600-byte input
there are 3 chunks with (offset, length) pairs (0, 256), (256, 256),
(512, 88). -/
theorem prepare_chunks_spec (bs : List Nat) :
    (prepare_chunks bs).length = (bs.length + 255) / 256
    ∧ (∀ i : Nat, i < (prepare_chunks bs).length →
        (prepare_chunks bs)[i]?
          = some (leBytes 4 (i * 256)
              ++ leBytes 4 ((bs.drop (i * 256)).take 256).length
              ++ (bs.drop (i * 256)).take 256
              ++ leBytes 4 (crc32 ((bs.drop (i * 256)).take 256))))
    ∧ (bs.length = 600 →
        (prepare_chunks bs).length = 3
        ∧ ((List.range 3).map fun i =>
            (i * 256, ((bs.drop (i * 256)).take 256).length))
          = [(0, 256), (256, 256), (512, 88)]) := by
  have hlen : (prepare_chunks bs).length = (chunksOf 256 bs).length := by
    rw [prepare_chunks, List.length_map, List.enum_length]
  have hclen := chunksOf_length_aux 256 (by norm_num) bs.length bs (Nat.le_refl _)
  refine ⟨by rw [hlen, hclen]; congr 1, ?_, ?_⟩
  · intro i hi
    have hi' : i < (chunksOf 256 bs).length := by rw [← hlen]; exact hi
    have hc := chunksOf_getElem 256 (by norm_num) bs.length bs (Nat.le_refl _) i hi'
    rw [prepare_chunks, List.getElem?_map, List.getElem?_enum, hc]
    rfl
  · intro h600
    constructor
    · rw [hlen, hclen, h600]
    · have hl : ∀ k : Nat, ((bs.drop k).take 256).length = min 256 (600 - k) := by
        intro k
        rw [List.length_take, List.length_drop, h600]
      simp only [List.range_succ, List.range_zero, List.map_append, List.map_cons,
        List.map_nil, hl]
      norm_num

set_option maxRecDepth 100000 in
/-- Witness for C2 at the 600-byte example, including the full content
of the final (short) chunk. -/
theorem prepare_chunks_spec_witness :
    (prepare_chunks exampleFirmware600).length = 3
    ∧ ((List.range 3).map fun i =>
        (i * 256, ((exampleFirmware600.drop (i * 256)).take 256).length))
      = [(0, 256), (256, 256), (512, 88)]
    ∧ (prepare_chunks exampleFirmware600)[2]?
        = some (leBytes 4 (2 * 256)
            ++ leBytes 4 ((exampleFirmware600.drop (2 * 256)).take 256).length
            ++ (exampleFirmware600.drop (2 * 256)).take 256
            ++ leBytes 4 (crc32 ((exampleFirmware600.drop (2 * 256)).take 256))) := by
  have h := prepare_chunks_spec exampleFirmware600
  have h6 := h.2.2 (by decide)
  exact ⟨h6.1, h6.2, h.2.1 2 (by rw [h6.1]; norm_num)⟩


/-! ## Claim C3: payload length vs declared byte count -/

/-- C3 (counterexample): the claimed invariant `payload.len() == byte_count`
fails: the standard end-of-file record, which reads `00000001FF` after
marker stripping, decodes successfully with declared byte count 0 but a
1-byte payload, because the decoder turns every trailing byte pair
(checksum included) into payload and never checks it against the
declared count. -/
theorem ihex_payload_len_cex :
    ¬ (∀ (line : List Char) (r : DecodedHex),
        ihexDecodeLine line = .ok r → r.data.length = r.len) := by
  intro hclaim
  have h := hclaim "00000001FF".data
    (DecodedHex.mk "00000001FF".data 0 0 (RecordType.Unknown 1) [255]) (by rfl)
  simp at h

/-- C3 (amended): for every successfully decoded line the payload
consists of all trailing byte pairs, so its length is
`(line.len() - 8) / 2` (the line length is necessarily at least 8 and
of even trailing count), while `len` independently records the declared
byte count; the claimed invariant `payload.len() == byte_count` holds
exactly when the line has `8 + 2 * byte_count` characters after the
marker. -/
theorem ihex_payload_length (line : List Char) (r : DecodedHex)
    (h : ihexDecodeLine line = .ok r) :
    8 ≤ line.length ∧ (line.length - 8) % 2 = 0
    ∧ r.data.length = (line.length - 8) / 2
    ∧ (r.data.length = r.len ↔ line.length = 8 + 2 * r.len) := by
  rw [ihexDecodeLine] at h
  rcases hs1 : strSlice line 0 2 with _ | s1
  · simp only [hs1] at h
    exact RsOutcome.noConfusion h
  · simp only [hs1] at h
    rcases hp1 : parseHexRadix USIZE_MAX s1 with _ | bc
    · simp only [hp1] at h
      exact RsOutcome.noConfusion h
    · simp only [hp1] at h
      rcases hs2 : strSlice line 2 6 with _ | s2
      · simp only [hs2] at h
        exact RsOutcome.noConfusion h
      · simp only [hs2] at h
        rcases hp2 : parseHexRadix 65535 s2 with _ | addr
        · simp only [hp2] at h
          exact RsOutcome.noConfusion h
        · simp only [hp2] at h
          rcases hs3 : strSlice line 6 8 with _ | s3
          · simp only [hs3] at h
            exact RsOutcome.noConfusion h
          · simp only [hs3] at h
            rcases hp3 : parseHexRadix 255 s3 with _ | rb
            · simp only [hp3] at h
              exact RsOutcome.noConfusion h
            · simp only [hp3] at h
              rcases hdp : decodePairs line line.length 8 with _ | _ | bd
              · simp only [hdp] at h
                exact RsOutcome.noConfusion h
              · simp only [hdp] at h
                exact RsOutcome.noConfusion h
              · simp only [hdp] at h
                injection h with h
                subst h
                have h8 : 8 ≤ line.length := (strSlice_inv line 6 8 s3 hs3).2.1
                rcases decodePairs_ok_spec line line.length 8 bd (by omega) hdp
                  with ⟨hpar, hlen⟩
                have hd1 : (DecodedHex.mk line bc addr (recordTypeOf rb) bd).data = bd := rfl
                have hd2 : (DecodedHex.mk line bc addr (recordTypeOf rb) bd).len = bc := rfl
                rw [hd1, hd2]
                refine ⟨h8, hpar, hlen, ?_⟩
                omega

/-- Witness for the amended C3: a data line with byte count 2 and two
trailing byte pairs. -/
theorem ihex_payload_length_witness :
    ihexDecodeLine "020000000000".data
      = .ok (DecodedHex.mk "020000000000".data 2 0 RecordType.DAT [0, 0])
    ∧ (8 ≤ "020000000000".data.length
        ∧ ("020000000000".data.length - 8) % 2 = 0
        ∧ ([0, 0] : List Nat).length = ("020000000000".data.length - 8) / 2
        ∧ (([0, 0] : List Nat).length = 2
            ↔ "020000000000".data.length = 8 + 2 * 2)) := by
  have hr : ihexDecodeLine "020000000000".data
      = .ok (DecodedHex.mk "020000000000".data 2 0 RecordType.DAT [0, 0]) := by rfl
  exact ⟨hr, ihex_payload_length _ _ hr⟩

/-! ## Claim C4: decoder failure modes -/

/-- C4 (counterexample): the file content consisting of a single empty
line makes `ihex_decode_lines` panic (the slice of the line from byte
index 1 is out of bounds), rather than return any `Result`; in the
model the out-of-bounds panic is the `oob` outcome, distinct from the
returned error outcome `failed`. -/
theorem ihex_lines_empty_line_panic_cex :
    ihexDecodeLines "\n".data = RsOutcome.oob
    ∧ (RsOutcome.oob : RsOutcome (List DecodedHex)) ≠ RsOutcome.failed :=
  ⟨by rfl, by decide⟩

/-- C4 (amended): for a line (after marker stripping) of length at
least 8 with an even trailing character count, every slice index is in
bounds and the decoder never panics, so malformed hex digits only
produce a returned parse error; but for an all-hex-digit line that is
shorter than 8 characters or has an odd trailing count, the decoder
panics with an out-of-bounds string slice (as does any empty line),
and no payload-vs-byte_count check exists. -/
theorem ihex_decode_failure_modes (line : List Char) :
    (8 ≤ line.length → (line.length - 8) % 2 = 0 → ihexDecodeLine line ≠ .oob)
    ∧ ((∀ c ∈ line, isHexDigitChar c = true) →
        (line.length < 8 ∨ (line.length - 8) % 2 = 1) →
        ihexDecodeLine line = .oob) := by
  constructor
  · intro h8 hpar hcontra
    have hs1 : strSlice line 0 2 = some ((line.drop 0).take 2) := by
      rw [strSlice_some line 0 2 (by omega) (by omega)]
    have hs2 : strSlice line 2 6 = some ((line.drop 2).take 4) := by
      rw [strSlice_some line 2 6 (by omega) (by omega)]
    have hs3 : strSlice line 6 8 = some ((line.drop 6).take 2) := by
      rw [strSlice_some line 6 8 (by omega) (by omega)]
    simp only [ihexDecodeLine, hs1, hs2, hs3] at hcontra
    split at hcontra
    · exact RsOutcome.noConfusion hcontra
    · split at hcontra
      · exact RsOutcome.noConfusion hcontra
      · split at hcontra
        · exact RsOutcome.noConfusion hcontra
        · split at hcontra
          · rename_i heq
            exact absurd heq (decodePairs_ne_oob line line.length 8 (by omega))
          · exact RsOutcome.noConfusion hcontra
          · exact RsOutcome.noConfusion hcontra
  · intro hall hshape
    have husize : 16 ^ 2 ≤ USIZE_MAX + 1 := by norm_num [USIZE_MAX]
    rcases hshape with hlt | hodd
    · by_cases h2 : line.length < 2
      · rw [ihexDecodeLine, strSlice_none line 0 2 (by omega)]
      · have hs1 : strSlice line 0 2 = some ((line.drop 0).take 2) := by
          rw [strSlice_some line 0 2 (by omega) (by omega)]
        rcases parseHex_slice line hall 0 2 USIZE_MAX (by omega) (by norm_num) husize
          with ⟨v1, hv1⟩
        by_cases h6 : line.length < 6
        · rw [ihexDecodeLine]
          simp only [hs1, hv1]
          rw [strSlice_none line 2 6 (by omega)]
        · have hs2 : strSlice line 2 6 = some ((line.drop 2).take 4) := by
            rw [strSlice_some line 2 6 (by omega) (by omega)]
          rcases parseHex_slice line hall 2 4 65535 (by omega) (by norm_num)
            (by norm_num) with ⟨v2, hv2⟩
          rw [ihexDecodeLine]
          simp only [hs1, hv1, hs2, hv2]
          rw [strSlice_none line 6 8 (by omega)]
    · have h8 : 8 ≤ line.length := by omega
      have hs1 : strSlice line 0 2 = some ((line.drop 0).take 2) := by
        rw [strSlice_some line 0 2 (by omega) (by omega)]
      have hs2 : strSlice line 2 6 = some ((line.drop 2).take 4) := by
        rw [strSlice_some line 2 6 (by omega) (by omega)]
      have hs3 : strSlice line 6 8 = some ((line.drop 6).take 2) := by
        rw [strSlice_some line 6 8 (by omega) (by omega)]
      rcases parseHex_slice line hall 0 2 USIZE_MAX (by omega) (by norm_num) husize
        with ⟨v1, hv1⟩
      rcases parseHex_slice line hall 2 4 65535 (by omega) (by norm_num)
        (by norm_num) with ⟨v2, hv2⟩
      rcases parseHex_slice line hall 6 2 255 (by omega) (by norm_num)
        (by norm_num) with ⟨v3, hv3⟩
      have hdp := decodePairs_oob_of_odd line hall line.length 8 hodd (by omega)
      rw [ihexDecodeLine]
      simp only [hs1, hv1, hs2, hv2, hs3, hv3, hdp]

/-- Witness for the amended C4: an 8-character all-hex line does not
panic; a 7-character all-hex line panics. -/
theorem ihex_decode_failure_modes_witness :
    ihexDecodeLine "00000000".data ≠ RsOutcome.oob
    ∧ ihexDecodeLine "0000000".data = RsOutcome.oob :=
  ⟨(ihex_decode_failure_modes "00000000".data).1 (by decide) (by decide),
    (ihex_decode_failure_modes "0000000".data).2 (by decide) (by decide)⟩

/-! ## Claim C5: header field decoding -/

/-- C5: `ihex_decode_lines` strips exactly one leading record-marker
character from each line (whatever that character is); on the stripped
line a successful decode takes chars [0,2) as the hex byte count,
[2,6) as the hex 16-bit address, [6,8) as the hex record-type byte, and
maps the record-type byte 0x00 to data, 0x02 to extended segment
address, 0x04 to extended linear address, and anything else to
`Unknown` carrying that byte. -/
theorem ihex_header_fields :
    (∀ (c : Char) (rest : List Char),
        ihexDecodeMarkedLine (c :: rest) = ihexDecodeLine rest)
    ∧ (∀ (line : List Char) (r : DecodedHex), ihexDecodeLine line = .ok r →
        parseHexRadix USIZE_MAX (line.take 2) = some r.len
        ∧ parseHexRadix 65535 ((line.drop 2).take 4) = some r.address
        ∧ ∃ b, parseHexRadix 255 ((line.drop 6).take 2) = some b
            ∧ r.record_type = recordTypeOf b)
    ∧ recordTypeOf 0x00 = .DAT
    ∧ recordTypeOf 0x02 = .ESA
    ∧ recordTypeOf 0x04 = .ELA
    ∧ (∀ b, b ≠ 0x00 → b ≠ 0x02 → b ≠ 0x04 → recordTypeOf b = .Unknown b) := by
  refine ⟨fun c rest => rfl, ?_, by rfl, by rfl, by rfl, ?_⟩
  · intro line r h
    rw [ihexDecodeLine] at h
    rcases hs1 : strSlice line 0 2 with _ | s1
    · simp only [hs1] at h
      exact RsOutcome.noConfusion h
    · simp only [hs1] at h
      rcases hp1 : parseHexRadix USIZE_MAX s1 with _ | bc
      · simp only [hp1] at h
        exact RsOutcome.noConfusion h
      · simp only [hp1] at h
        rcases hs2 : strSlice line 2 6 with _ | s2
        · simp only [hs2] at h
          exact RsOutcome.noConfusion h
        · simp only [hs2] at h
          rcases hp2 : parseHexRadix 65535 s2 with _ | addr
          · simp only [hp2] at h
            exact RsOutcome.noConfusion h
          · simp only [hp2] at h
            rcases hs3 : strSlice line 6 8 with _ | s3
            · simp only [hs3] at h
              exact RsOutcome.noConfusion h
            · simp only [hs3] at h
              rcases hp3 : parseHexRadix 255 s3 with _ | rb
              · simp only [hp3] at h
                exact RsOutcome.noConfusion h
              · simp only [hp3] at h
                rcases hdp : decodePairs line line.length 8 with _ | _ | bd
                · simp only [hdp] at h
                  exact RsOutcome.noConfusion h
                · simp only [hdp] at h
                  exact RsOutcome.noConfusion h
                · simp only [hdp] at h
                  injection h with h
                  subst h
                  have he1 : s1 = line.take 2 := by
                    have := (strSlice_inv line 0 2 s1 hs1).2.2
                    simpa using this
                  have he2 : s2 = (line.drop 2).take 4 := by
                    have := (strSlice_inv line 2 6 s2 hs2).2.2
                    simpa using this
                  have he3 : s3 = (line.drop 6).take 2 := by
                    have := (strSlice_inv line 6 8 s3 hs3).2.2
                    simpa using this
                  subst he1 he2 he3
                  exact ⟨hp1, hp2, rb, hp3, rfl⟩
  · intro b h0 h2 h4
    rw [recordTypeOf, if_neg h0, if_neg h2, if_neg h4]

/-- Witness for C5 at a concrete extended-linear-address line. -/
theorem ihex_header_fields_witness :
    ihexDecodeMarkedLine (':' :: "0200000412".data) = ihexDecodeLine "0200000412".data
    ∧ ihexDecodeLine "0200000412".data
        = .ok (DecodedHex.mk "0200000412".data 2 0 RecordType.ELA [18])
    ∧ parseHexRadix USIZE_MAX ("0200000412".data.take 2) = some 2
    ∧ parseHexRadix 65535 (("0200000412".data.drop 2).take 4) = some 0
    ∧ (∃ b, parseHexRadix 255 (("0200000412".data.drop 6).take 2) = some b
        ∧ RecordType.ELA = recordTypeOf b)
    ∧ recordTypeOf 5 = RecordType.Unknown 5 := by
  have h := ihex_header_fields
  have hr : ihexDecodeLine "0200000412".data
      = .ok (DecodedHex.mk "0200000412".data 2 0 RecordType.ELA [18]) := by rfl
  have hf := h.2.1 "0200000412".data _ hr
  exact ⟨h.1 ':' _, hr, hf.1, hf.2.1, hf.2.2,
    h.2.2.2.2.2 5 (by decide) (by decide) (by decide)⟩


/-! ## Lemmas about the framed read loop -/

theorem filter_nz_idem (l : List Nat) :
    (l.filter (fun b => b != 0)).filter (fun b => b != 0)
      = l.filter (fun b => b != 0) := by
  rw [List.filter_filter]
  congr 1
  funext a
  exact Bool.and_self _

theorem readStep_filtered (buf seg : List Nat) :
    (readStep buf seg).filter (fun b => b != 0) = readStep buf seg := by
  rw [readStep, filter_nz_idem]

theorem readStep_nil (buf : List Nat) (hbuf : buf.filter (fun b => b != 0) = buf) :
    readStep buf [] = buf := by
  rw [readStep, List.append_nil, hbuf]

theorem readStep_filter_seg (buf seg : List Nat) :
    readStep buf (seg.filter (fun b => b != 0)) = readStep buf seg := by
  rw [readStep, readStep, List.filter_append, List.filter_append, filter_nz_idem]

theorem focusReadLoop_spec :
    ∀ (segs : List (List Nat)) (buf : List Nat) (k : Nat),
      buf.filter (fun b => b != 0) = buf →
      eofMarker.isSuffixOf buf = false →
      (∀ j, j < k →
        eofMarker.isSuffixOf (List.foldl readStep buf (segs.take (j + 1))) = false) →
      eofMarker.isSuffixOf (List.foldl readStep buf (segs.take (k + 1))) = true →
      focusReadLoop segs buf
        = some (List.foldl readStep buf (segs.take (k + 1))) := by
  intro segs
  induction segs with
  | nil =>
    intro buf k hfil hnot _ hk
    simp only [List.take_nil, List.foldl_nil] at hk
    rw [hk] at hnot
    exact Bool.noConfusion hnot
  | cons seg rest ih =>
    intro buf k hfil hnot hmin hk
    rw [focusReadLoop]
    by_cases hemp : seg.isEmpty
    · have hseg : seg = [] := List.isEmpty_iff.mp hemp
      subst hseg
      change focusReadLoop rest buf = _
      cases k with
      | zero =>
        rw [List.take_succ_cons, List.take_zero, List.foldl_cons, List.foldl_nil,
          readStep_nil buf hfil] at hk
        rw [hk] at hnot
        exact Bool.noConfusion hnot
      | succ k =>
        have hred : ∀ m, List.foldl readStep buf ((([] : List Nat) :: rest).take (m + 1))
            = List.foldl readStep buf (rest.take m) := by
          intro m
          rw [List.take_succ_cons, List.foldl_cons, readStep_nil buf hfil]
        rw [hred] at hk
        have hmin' : ∀ j, j < k →
            eofMarker.isSuffixOf (List.foldl readStep buf (rest.take (j + 1))) = false := by
          intro j hj
          have := hmin (j + 1) (by omega)
          rwa [hred] at this
        rw [ih buf k hfil hnot hmin' hk, hred]
    · rw [if_neg hemp]
      rcases hsfx : eofMarker.isSuffixOf (readStep buf seg) with _ | _
      · -- not a suffix yet: recurse
        cases k with
        | zero =>
          rw [List.take_succ_cons, List.take_zero, List.foldl_cons,
            List.foldl_nil] at hk
          rw [hk] at hsfx
          exact Bool.noConfusion hsfx
        | succ k =>
          have hred : ∀ m, List.foldl readStep buf ((seg :: rest).take (m + 1))
              = List.foldl readStep (readStep buf seg) (rest.take m) := by
            intro m
            rw [List.take_succ_cons, List.foldl_cons]
          rw [hred] at hk
          have hmin' : ∀ j, j < k →
              eofMarker.isSuffixOf
                (List.foldl readStep (readStep buf seg) (rest.take (j + 1))) = false := by
            intro j hj
            have := hmin (j + 1) (by omega)
            rwa [hred] at this
          simp only [hsfx, Bool.false_eq_true, if_false]
          rw [ih (readStep buf seg) k (readStep_filtered buf seg) hsfx hmin' hk, hred]
      · -- buffer now ends with the sentinel: the loop returns it
        have hk0 : k = 0 := by
          by_contra hne
          have := hmin 0 (by omega)
          rw [List.take_succ_cons, List.take_zero, List.foldl_cons,
            List.foldl_nil] at this
          rw [this] at hsfx
          exact Bool.noConfusion hsfx
        subst hk0
        simp only [hsfx, if_true]
        rw [List.take_succ_cons, List.take_zero, List.foldl_cons, List.foldl_nil]

theorem focusReadLoop_result_filtered :
    ∀ (segs : List (List Nat)) (buf r : List Nat),
      buf.filter (fun b => b != 0) = buf →
      focusReadLoop segs buf = some r →
      r.filter (fun b => b != 0) = r := by
  intro segs
  induction segs with
  | nil =>
    intro buf r _ h
    rw [focusReadLoop] at h
    exact Option.noConfusion h
  | cons seg rest ih =>
    intro buf r hfil h
    rw [focusReadLoop] at h
    by_cases hemp : seg.isEmpty
    · rw [if_pos hemp] at h
      exact ih buf r hfil h
    · rw [if_neg hemp] at h
      rcases hsfx : eofMarker.isSuffixOf (readStep buf seg) with _ | _
      · simp only [hsfx, Bool.false_eq_true, if_false] at h
        exact ih (readStep buf seg) r (readStep_filtered buf seg) h
      · simp only [hsfx, if_true] at h
        injection h with h
        rw [← h]
        exact readStep_filtered buf seg

theorem mem_removeSentinelsAux :
    ∀ (fuel : Nat) (buf : List Nat) (b : Nat),
      b ∈ removeSentinelsAux fuel buf → b ∈ buf := by
  intro fuel
  induction fuel with
  | zero => intro buf b h; exact h
  | succ fuel ih =>
    intro buf b h
    rw [removeSentinelsAux] at h
    rcases hf : findSentinel buf with _ | pos
    · rw [hf] at h
      exact h
    · rw [hf] at h
      have := ih _ b h
      rcases List.mem_append.mp this with hm | hm
      · exact List.take_subset _ _ hm
      · exact List.drop_subset _ _ hm

theorem mem_trimAsciiWs (buf : List Nat) (b : Nat) (h : b ∈ trimAsciiWs buf) :
    b ∈ buf := by
  rw [trimAsciiWs] at h
  exact List.drop_subset _ _ (List.take_subset _ _ h)

theorem focusReadLoop_map_filter :
    ∀ (segs : List (List Nat)) (buf : List Nat),
      buf.filter (fun b => b != 0) = buf →
      eofMarker.isSuffixOf buf = false →
      focusReadLoop segs buf
        = focusReadLoop (segs.map (fun s => s.filter (fun b => b != 0))) buf := by
  intro segs
  induction segs with
  | nil => intro buf _ _; rfl
  | cons seg rest ih =>
    intro buf hfil hnot
    rw [List.map_cons, focusReadLoop, focusReadLoop]
    by_cases hemp : seg.isEmpty
    · have hseg : seg = [] := List.isEmpty_iff.mp hemp
      subst hseg
      simp only [List.filter_nil, List.isEmpty_nil, if_true]
      exact ih buf hfil hnot
    · rw [if_neg hemp]
      by_cases hempf : (seg.filter (fun b => b != 0)).isEmpty
      · -- the segment was all NULs: the filtered buffer is unchanged
        have hsegf : seg.filter (fun b => b != 0) = [] := List.isEmpty_iff.mp hempf
        have hstep : readStep buf seg = buf := by
          rw [readStep, List.filter_append, hsegf, List.append_nil, hfil]
        rw [if_pos hempf, hstep]
        simp only [hnot, Bool.false_eq_true, if_false]
        exact ih buf hfil hnot
      · rw [if_neg hempf, readStep_filter_seg]
        rcases hsfx : eofMarker.isSuffixOf (readStep buf seg) with _ | _
        · simp only [hsfx, Bool.false_eq_true, if_false]
          exact ih (readStep buf seg) (readStep_filtered buf seg) hsfx
        · simp only [hsfx, if_true]

/-! ## Claim C1: read framing -/

/-- C1 (counterexample): if the sentinel arrives mid-buffer with
further bytes after it in the same read — here the single segment
`"resp\r\n.\r\nX"` — the accumulated bytes contain the sentinel, yet
`Focus::read` does not stop: the break condition is
`ends_with(eof_marker)`, which is false, so the loop keeps reading
(modelled as `none` when the stream yields nothing further), instead of
returning as the claim requires. -/
theorem focus_read_midbuffer_cex :
    (findSentinel (strBytes "resp\r\n.\r\nX")).isSome = true
    ∧ eofMarker.isSuffixOf (strBytes "resp\r\n.\r\nX") = false
    ∧ focusRead [strBytes "resp\r\n.\r\nX"] = none :=
  ⟨by decide, by decide, by decide⟩

/-- C1 (amended): `Focus::read` stops accumulating as soon as the
accumulated (NUL-filtered) bytes END with the sentinel — at the first
segment index where that holds — then removes every occurrence of the
sentinel, trims ASCII whitespace from both ends, and returns the
remainder; in particular a response split across reads as
`"resp\r\n."` then `"\r\n"` is assembled into exactly `"resp"`. -/
theorem focus_read_framing :
    (∀ (segs : List (List Nat)) (k : Nat),
      (∀ j, j < k →
        eofMarker.isSuffixOf (accumRead (segs.take (j + 1))) = false) →
      eofMarker.isSuffixOf (accumRead (segs.take (k + 1))) = true →
      focusRead segs
        = some (trimAsciiWs (removeSentinels (accumRead (segs.take (k + 1))))))
    ∧ focusRead [strBytes "resp\r\n.", strBytes "\r\n"] = some (strBytes "resp") := by
  constructor
  · intro segs k hmin hk
    have hloop := focusReadLoop_spec segs [] k rfl (by decide) hmin hk
    rw [focusRead, hloop, Option.map_some']
    rfl
  · decide

/-- Witness for the amended C1 at the spec's split-read example
(stopping index 1, the second segment). -/
theorem focus_read_framing_witness :
    focusRead [strBytes "resp\r\n.", strBytes "\r\n"]
      = some (trimAsciiWs (removeSentinels
          (accumRead ([strBytes "resp\r\n.", strBytes "\r\n"].take 2))))
    ∧ trimAsciiWs (removeSentinels
          (accumRead ([strBytes "resp\r\n.", strBytes "\r\n"].take 2)))
        = strBytes "resp" :=
  ⟨focus_read_framing.1 [strBytes "resp\r\n.", strBytes "\r\n"] 1
      (by decide) (by decide),
    by decide⟩

/-! ## Claim C10: NUL filtering -/

/-- C10: `Focus::read` deletes every 0x00 byte from each delivered
segment before sentinel detection and before returning: pre-filtering
the segments does not change the result, the returned bytes never
contain a NUL, and a NUL interrupting the sentinel on the wire does not
prevent its detection (concretely, `"resp\r\n\x00.\r\n"` still yields
`"resp"`, with the device's NUL silently removed rather than reported
or preserved). -/
theorem focus_read_nul_filtering :
    (∀ segs : List (List Nat),
        focusRead segs
          = focusRead (segs.map (fun s => s.filter (fun b => b != 0))))
    ∧ (∀ (segs : List (List Nat)) (out : List Nat),
        focusRead segs = some out → ∀ b ∈ out, b ≠ 0)
    ∧ focusRead [strBytes "resp\r\n\x00.\r\n"] = some (strBytes "resp") := by
  refine ⟨?_, ?_, by decide⟩
  · intro segs
    rw [focusRead, focusRead, focusReadLoop_map_filter segs [] rfl (by decide)]
  · intro segs out hout b hb
    rw [focusRead] at hout
    rcases hl : focusReadLoop segs [] with _ | buf
    · rw [hl] at hout
      exact Option.noConfusion hout
    · rw [hl, Option.map_some'] at hout
      injection hout with hout
      have hfil : buf.filter (fun b => b != 0) = buf :=
        focusReadLoop_result_filtered segs [] buf rfl hl
      have hbuf : b ∈ buf := by
        rw [← hout] at hb
        exact mem_removeSentinelsAux buf.length buf b (mem_trimAsciiWs _ b hb)
      rw [← hfil] at hbuf
      have := (List.mem_filter.mp hbuf).2
      simpa using this

/-- Witness for C10: a segment containing a NUL inside the sentinel
and a NUL-free result. -/
theorem focus_read_nul_filtering_witness :
    focusRead [strBytes "a\x00\r\n.\r\n"]
      = focusRead ([strBytes "a\x00\r\n.\r\n"].map (fun s => s.filter (fun b => b != 0)))
    ∧ (∀ b ∈ ([97] : List Nat), b ≠ 0) :=
  ⟨focus_read_nul_filtering.1 [strBytes "a\x00\r\n.\r\n"],
    focus_read_nul_filtering.2.1 [strBytes "a\x00\r\n.\r\n"] [97] (by decide)⟩


/-! ## Claim C6: range-validated setters -/

/-- C6 (counterexample): a `Duration` of 65000 s + 500 ms exceeds 65000
seconds, yet `led_idle_time_limit_set` does not reject it:
`as_secs()` truncates to 65000, the check passes, and the setter
queries the device and then writes the set command — so neither the
out-of-range error nor the no-write guarantee of the claim holds for
such durations. -/
theorem duration_range_boundary_cex :
    (Dur.mk 65000500).millis > 65000 * 1000
    ∧ (ledIdleTimeLimitSet (Dur.mk 65000500) (FocusSt.mk ["0", ""] [])).1 = .ok ()
    ∧ (ledIdleTimeLimitSet (Dur.mk 65000500) (FocusSt.mk ["0", ""] [])).2.writes
        = ["idleleds.time_limit\n", "idleleds.time_limit 65000\n"] :=
  ⟨by decide, by rfl, by rfl⟩

/-- C6 (amended): every range-validated setter rejects an out-of-range
argument before sending any command and leaves the transport transcript
untouched, returning an out-of-range error carrying the field, value,
and maximum: `settings_default_layer_set` above `MAX_LAYERS`,
`superkeys_overlap_set` above 80, `led_idle_true_sleep_time_set` and
`led_idle_time_limit_set` when the duration's truncated whole-second
value `as_secs()` exceeds 65000 (i.e. at 65001 seconds or more — a
sub-second excess over 65000 s is accepted), and `mouse_speed_set`
above 127. -/
theorem range_checked_setters (st : FocusSt) (layer pct speed : Nat) (d1 d2 : Dur) :
    (layer > MAX_LAYERS →
      settingsDefaultLayerSet layer st
        = (.error (.outOfRange "Layer" layer MAX_LAYERS), st))
    ∧ (pct > 80 →
      superkeysOverlapSet pct st
        = (.error (.outOfRange "Percentage" pct 80), st))
    ∧ (d1.asSecs > 65000 →
      ledIdleTrueSleepTimeSet d1 st
        = (.error (.outOfRange "Seconds" d1.asSecs 65000), st))
    ∧ (d2.asSecs > 65000 →
      ledIdleTimeLimitSet d2 st
        = (.error (.outOfRange "Duration" d2.asSecs 65000), st))
    ∧ (speed > 127 →
      mouseSpeedSet speed st
        = (.error (.outOfRange "Speed" speed 127), st)) := by
  refine ⟨?_, ?_, ?_, ?_, ?_⟩
  · intro h
    rw [settingsDefaultLayerSet, if_pos h]
    rfl
  · intro h
    rw [superkeysOverlapSet, if_pos h]
    rfl
  · intro h
    rw [ledIdleTrueSleepTimeSet, if_pos h]
    rfl
  · intro h
    rw [ledIdleTimeLimitSet, if_pos h]
    rfl
  · intro h
    rw [mouseSpeedSet, if_pos h]
    rfl

/-- Witness for the amended C6: all five setters at concrete
out-of-range arguments on an empty transcript. -/
theorem range_checked_setters_witness :
    settingsDefaultLayerSet 10 (FocusSt.mk [] [])
      = (.error (.outOfRange "Layer" 10 MAX_LAYERS), FocusSt.mk [] [])
    ∧ superkeysOverlapSet 81 (FocusSt.mk [] [])
      = (.error (.outOfRange "Percentage" 81 80), FocusSt.mk [] [])
    ∧ ledIdleTrueSleepTimeSet (Dur.mk 65001000) (FocusSt.mk [] [])
      = (.error (.outOfRange "Seconds" (Dur.mk 65001000).asSecs 65000), FocusSt.mk [] [])
    ∧ ledIdleTimeLimitSet (Dur.mk 65001000) (FocusSt.mk [] [])
      = (.error (.outOfRange "Duration" (Dur.mk 65001000).asSecs 65000), FocusSt.mk [] [])
    ∧ mouseSpeedSet 128 (FocusSt.mk [] [])
      = (.error (.outOfRange "Speed" 128 127), FocusSt.mk [] []) := by
  have h := range_checked_setters (FocusSt.mk [] []) 10 81 128
    (Dur.mk 65001000) (Dur.mk 65001000)
  exact ⟨h.1 (by decide), h.2.1 (by decide), h.2.2.1 (by decide),
    h.2.2.2.1 (by decide), h.2.2.2.2 (by decide)⟩

/-! ## Claim C7: guarded setters -/

/-- C7 (counterexample): calling `keymap_custom_set` with the value
already on the device returns `Ok`, but it does NOT issue zero write
calls: the read-back itself sends the query command, so exactly one
write — `"keymap.custom\n"` — reaches the transport, and the write
transcript is not empty as the claim requires. -/
theorem guarded_setter_write_cex :
    (keymapCustomSet [1, 2, 3] (FocusSt.mk ["1 2 3"] [])).1 = .ok ()
    ∧ (keymapCustomSet [1, 2, 3] (FocusSt.mk ["1 2 3"] [])).2.writes
        = ["keymap.custom\n"]
    ∧ (["keymap.custom\n"] : List String) ≠ [] :=
  ⟨by rfl, by rfl, by decide⟩

/-- C7 (amended): for a guarded setter, if the value read back from the
device equals the requested new value, the setter returns `Ok` having
issued no set-command write: the only bytes written in that case are
the getter's own query command (`"keymap.custom\n"`), which consumes
one oracle response. -/
theorem guarded_setter_no_set_write (st : FocusSt) (data : List Nat) (r : String)
    (rest : List String) (hreads : st.reads = r :: rest)
    (hparse : string_to_numerical_vec 65535 r.data = .ok data) :
    keymapCustomSet data st
      = (.ok (), FocusSt.mk rest (st.writes ++ ["keymap.custom\n"])) := by
  rcases st with ⟨reads, writes⟩
  have hr : reads = r :: rest := hreads
  subst hr
  simp only [keymapCustomSet, keymapCustomGet, commandResponseString, commandNewLine,
    commandRaw, fmBind, fwrite, fmPure, fread, hparse, Bool.false_eq_true, if_false]
  rw [if_pos trivial]
  rfl

/-- Witness for the amended C7 at a concrete device state. -/
theorem guarded_setter_no_set_write_witness :
    keymapCustomSet [1, 2, 3] (FocusSt.mk ["1 2 3"] ["earlier"])
      = (.ok (), FocusSt.mk [] (["earlier"] ++ ["keymap.custom\n"])) :=
  guarded_setter_no_set_write (FocusSt.mk ["1 2 3"] ["earlier"]) [1, 2, 3]
    "1 2 3" [] (by rfl) (by rfl)

end Bazecor
